import Mathlib

/-!
# Verification of the lazy-sequence combinator library (`src/lib/iterable.ts`)

Shallow embedding of the combinators over `List`: a `List α` models a finite
re-traversable sequence (every traversal observes the same elements), `Option α`
models the host language's `undefined` "no value" sentinel, and `Int` models
JavaScript numbers for the parameters where negative values are meaningful.
Generator functions are translated to structurally recursive list producers;
the one unbounded `while` loop (`permutations`) is given fuel semantics.
-/

namespace Jspp

universe u

variable {α : Type u} {β : Type u}

/-- `drop(iter, num)`: the counter `i` starts at `num` and decrements on every
element; an element is emitted only when the test `i-- > 0` fails, so a
non-positive `num` skips nothing. -/
def dropGo : Int → List α → List α
  | _, [] => []
  | i, x :: xs => if 0 < i then dropGo (i - 1) xs else x :: dropGo (i - 1) xs

/-- `drop(iter, num)` from the source: lazily skips the first `num` elements. -/
def drop (l : List α) (num : Int) : List α :=
  dropGo num l

/-- `take(iter, num)`: emits elements while the test `i-- <= 0` does not fire. -/
def takeGo : Int → List α → List α
  | _, [] => []
  | i, x :: xs => if i ≤ 0 then [] else x :: takeGo (i - 1) xs

/-- `take(iter, num)` from the source. -/
def take (l : List α) (num : Int) : List α :=
  takeGo num l

/-- `first(iter)`: the first element of a traversal, or `undefined` (here
`none`) when the traversal yields nothing. -/
def first : List α → Option α
  | [] => none
  | x :: _ => some x

/-- `nth(iter, index)`: `first(drop(iter, index))` for `index >= 0`, and the
`undefined` sentinel for a negative index. -/
def nth (l : List α) (index : Int) : Option α :=
  if 0 ≤ index then first (drop l index) else none

/-- `last(iter)`: `result` starts as `undefined` and is overwritten by every
element of the traversal. -/
def last (l : List α) : Option α :=
  l.foldl (fun _ x => some x) none

/-- `count(iter)` (no predicate supplied): one full pass incrementing a
counter. -/
def count (l : List α) : Nat :=
  l.foldl (fun c _ => c + 1) 0

/-- One step of the `max(iter)` loop: `r` is `undefined` (`none`) while
`isFirst` holds, and is replaced whenever `x > r`. -/
def maxStep [LT α] [DecidableRel (α := α) (· < ·)] (r : Option α) (x : α) : Option α :=
  match r with
  | none => some x
  | some m => if m < x then some x else some m

/-- `max(iter)` from the source, as the fold of `maxStep` over one pass. -/
def max [LT α] [DecidableRel (α := α) (· < ·)] (l : List α) : Option α :=
  l.foldl maxStep none

/-- The circular-buffer write `buffer[i] = x` of `takeExceptLast`: JavaScript
assignment at index `i` overwrites in range and appends at `i = length`
(the only two cases the generator reaches). -/
def bufWrite (buf : List α) (i : Nat) (x : α) : List α :=
  if i < buf.length then buf.set i x else buf ++ [x]

/-- The generator body of `takeExceptLast` for `num > 0`: on each element,
yield `buffer[i]` when the buffer is full, then store the element at the
rotating cursor `i` (`if (++i >= num) i = 0`). -/
def takeExceptLastGo (num : Nat) : List α → Nat → List α → List α
  | [], _, _ => []
  | x :: xs, i, buf =>
    (if num ≤ buf.length then (buf.get? i).toList else []) ++
      takeExceptLastGo num xs (if num ≤ i + 1 then 0 else i + 1) (bufWrite buf i x)

/-- `takeExceptLast(iter, num)` from the source: passthrough for `num ≤ 0`,
otherwise the circular-buffer generator. -/
def takeExceptLast (l : List α) (num : Int) : List α :=
  if num ≤ 0 then l else takeExceptLastGo num.toNat l 0 []

/-- `sliced(iter, start, end)` from the source (Python-style slicing):
positive `start` drops `start` elements, negative `start` drops
`count(iter) + start` elements; an absent `end` keeps the rest, negative `end`
delegates to `takeExceptLast`, and otherwise `end - start` elements are taken. -/
def sliced (l : List α) (start : Int) (stop : Option Int) : List α :=
  let l1 :=
    if 0 < start then drop l start
    else if start < 0 then drop l ((count l : Int) + start)
    else l
  match stop with
  | none => l1
  | some e => if e < 0 then takeExceptLast l1 (-e) else take l1 (e - start)

/-- The generator body of `slicesOf`: push onto `temp` while it is below
`size`, and emit-and-reset whenever `temp.length === size`. -/
def slicesOfGo (size : Nat) : List α → List α → List (List α)
  | [], temp => if 0 < temp.length ∨ size = 0 then [temp] else []
  | x :: xs, temp =>
    let temp1 := if temp.length < size then temp ++ [x] else temp
    if temp1.length = size then temp1 :: slicesOfGo size xs []
    else slicesOfGo size xs temp1

/-- `slicesOf(iter, size)` from the source: non-overlapping chunks, with the
trailing `if (temp.length > 0 || size === 0)` emission. -/
def slicesOf (l : List α) (size : Nat) : List (List α) :=
  slicesOfGo size l []

/-- The loop body of `slicesOfOverlapping`: push the element, `shift` once the
buffer exceeds `size`, and emit a copy whenever the buffer length equals
`size`. -/
def slicesOfOverlappingGo (size : Nat) : List α → List α → List (List α)
  | [], _ => []
  | x :: xs, temp =>
    let t1 := temp ++ [x]
    let t2 := if size < t1.length then t1.tail else t1
    (if t2.length = size then [t2] else []) ++ slicesOfOverlappingGo size xs t2

/-- `slicesOfOverlapping(iter, size)` from the source, including the initial
`if (size === 0) yield new It([...temp])` emission. -/
def slicesOfOverlapping (l : List α) (size : Nat) : List (List α) :=
  (if size = 0 then [[]] else []) ++ slicesOfOverlappingGo size l []

/-- `transpose(seq)` from the source: `width` is `max(mapBy(seq, count))`; when
the input is empty that `max` is `undefined` and the loop `x < width` never
runs; otherwise one lazy row of `nth(row, x)` per column index `x`. -/
def transpose (l : List (List α)) : List (List (Option α)) :=
  match max (l.map fun row => count row) with
  | none => []
  | some width => (List.range width).map fun x => l.map fun row => nth row (Int.ofNat x)

/-! ## Basic characterizations of the positional helpers -/

theorem dropGo_of_nonpos : ∀ (l : List α) (i : Int), i ≤ 0 → dropGo i l = l
  | [], _, _ => rfl
  | x :: xs, i, h => by
    rw [dropGo, if_neg (by omega : ¬ 0 < i), dropGo_of_nonpos xs (i - 1) (by omega)]

theorem dropGo_eq_drop : ∀ (l : List α) (i : Int), dropGo i l = l.drop i.toNat
  | [], i => by simp [dropGo]
  | x :: xs, i => by
    by_cases h : 0 < i
    · have ht : i.toNat = (i - 1).toNat + 1 := by omega
      simp only [dropGo, if_pos h, ht, List.drop_succ_cons]
      exact dropGo_eq_drop xs (i - 1)
    · have ht : i.toNat = 0 := by omega
      rw [dropGo_of_nonpos (x :: xs) i (by omega), ht, List.drop_zero]

theorem drop_eq (l : List α) (i : Int) : drop l i = l.drop i.toNat :=
  dropGo_eq_drop l i

theorem takeGo_eq_take : ∀ (l : List α) (i : Int), takeGo i l = l.take i.toNat
  | [], i => by simp [takeGo]
  | x :: xs, i => by
    by_cases h : i ≤ 0
    · have ht : i.toNat = 0 := by omega
      simp [takeGo, if_pos h, ht]
    · have ht : i.toNat = (i - 1).toNat + 1 := by omega
      simp only [takeGo, if_neg h, ht, List.take_succ_cons]
      rw [takeGo_eq_take xs (i - 1)]

theorem take_eq (l : List α) (i : Int) : take l i = l.take i.toNat :=
  takeGo_eq_take l i

theorem count_eq_length (l : List α) : count l = l.length := by
  suffices h : ∀ (l : List α) (n : Nat), l.foldl (fun c _ => c + 1) n = n + l.length by
    simpa using h l 0
  intro l
  induction l with
  | nil => simp
  | cons x xs ih => intro n; simp [List.foldl_cons, ih]; omega

theorem first_eq_head? (l : List α) : first l = l.head? := by
  cases l <;> rfl

theorem nth_eq_get? (l : List α) (i : Nat) : nth l (Int.ofNat i) = l.get? i := by
  rw [nth, if_pos (show (0 : Int) ≤ Int.ofNat i from Int.ofNat_nonneg i), drop_eq,
    first_eq_head?]
  simp [List.head?_drop, List.get?_eq_getElem?, Int.toNat_ofNat]

/-! ## C1: `slicesOf` with `size = 0` -/

theorem slicesOfGo_zero : ∀ l : List α, slicesOfGo 0 l [] = List.replicate (l.length + 1) []
  | [] => rfl
  | x :: xs => by
    have h := slicesOfGo_zero xs
    simp [slicesOfGo, h, List.replicate_succ]

/-- C1 (counterexample): on the non-empty input `[0]`, `slicesOf([0], 0)` emits
two empty chunks, not exactly one. -/
theorem c1_counterexample : ¬ ((slicesOf [(0 : Nat)] 0).length = 1) := by
  decide

/-- C1 (amended): `slicesOf(seq, 0)` emits one empty chunk per input element
plus one trailing empty chunk — `count(seq) + 1` empty chunks in total — so it
emits exactly one empty chunk only when the input is empty. -/
theorem c1_slicesOf_size_zero (l : List α) :
    slicesOf l 0 = List.replicate (count l + 1) [] := by
  rw [slicesOf, slicesOfGo_zero, count_eq_length]

/-- C1 witness: the amended statement evaluated at `[7, 8]`. -/
theorem c1_witness : slicesOf [7, 8] 0 = [[], [], []] := by
  have h := c1_slicesOf_size_zero [7, 8]
  simpa using h

/-! ## C2: `slicesOfOverlapping` with `size = 0` -/

theorem slicesOfOverlappingGo_zero :
    ∀ l : List α, slicesOfOverlappingGo 0 l [] = List.replicate l.length []
  | [] => rfl
  | x :: xs => by
    have h := slicesOfOverlappingGo_zero xs
    simp [slicesOfOverlappingGo, h, List.replicate_succ]

/-- C2 (counterexample): on the non-empty input `[0]`,
`slicesOfOverlapping([0], 0)` emits two empty windows (one before the loop and
one while processing the element), not one in total. -/
theorem c2_counterexample : ¬ ((slicesOfOverlapping [(0 : Nat)] 0).length = 1) := by
  decide

/-- C2 (amended): `slicesOfOverlapping(seq, 0)` emits one empty window before
processing any element and then one further empty window per input element —
`count(seq) + 1` empty windows in total — so the total is one only when the
input is empty. -/
theorem c2_slicesOfOverlapping_size_zero (l : List α) :
    slicesOfOverlapping l 0 = List.replicate (count l + 1) [] := by
  rw [slicesOfOverlapping, if_pos rfl, slicesOfOverlappingGo_zero, count_eq_length]
  simp [List.replicate_succ]

/-- C2 witness: the amended statement evaluated at `[7, 8]`. -/
theorem c2_witness : slicesOfOverlapping [7, 8] 0 = [[], [], []] := by
  have h := c2_slicesOfOverlapping_size_zero [7, 8]
  simpa using h

/-! ## C6: `sliced` with a negative `start` -/

/-- C6: for a negative `start`, `sliced(seq, start)` drops
`count(seq) + start` leading elements, the drop count being clamped at zero
(`Int.toNat`) when `count(seq) + start` is negative. -/
theorem c6_sliced_negative_start (l : List α) (start : Int) (h : start < 0) :
    sliced l start none = l.drop ((count l + start).toNat) := by
  rw [sliced]
  simp only [if_neg (by omega : ¬ 0 < start), if_pos h]
  exact drop_eq l _

/-- C6 witness: `sliced([1,2,3,4,5], -2)` yields `[4, 5]`. -/
theorem c6_witness : sliced [1, 2, 3, 4, 5] (-2) none = [4, 5] := by
  have h := c6_sliced_negative_start [1, 2, 3, 4, 5] (-2) (by decide)
  simpa [count_eq_length] using h

/-! ## C7: `takeExceptLast` -/

theorem set_junction :
    ∀ (u : List α) (b x : α) (v : List α), (u ++ b :: v).set u.length x = u ++ x :: v
  | [], _, _, _ => rfl
  | a :: u, b, x, v => by
    simp [set_junction u b x v]

/-- Once the circular buffer of `takeExceptLast` is full, each incoming
element emits the oldest buffered element: with the buffer split as
`u ++ b :: v` (write cursor at `u.length`, oldest element `b`), the remaining
outputs are the next `xs.length` elements of the stream delayed by `num`. -/
theorem takeExceptLastGo_full (num : Nat) :
    ∀ (xs : List α) (u : List α) (b : α) (v : List α),
      u.length + (b :: v).length = num →
      takeExceptLastGo num xs u.length (u ++ b :: v) = (b :: (v ++ u ++ xs)).take xs.length
  | [], _, _, _, _ => by simp [takeExceptLastGo]
  | x :: xs, u, b, v, hlen => by
    have hl : u.length + v.length + 1 = num := by
      simp only [List.length_cons] at hlen
      omega
    have hfull : num ≤ (u ++ b :: v).length := by
      simp only [List.length_append, List.length_cons]
      omega
    have hcur : (u ++ b :: v).get? u.length = some b := by
      simp [List.get?_eq_getElem?, List.getElem?_append_right (Nat.le_refl u.length)]
    have hwrite : bufWrite (u ++ b :: v) u.length x = u ++ x :: v := by
      rw [bufWrite,
        if_pos (by simp only [List.length_append, List.length_cons]; omega),
        set_junction]
    rw [takeExceptLastGo, if_pos hfull, hcur, hwrite]
    rcases v with _ | ⟨c, v2⟩
    · have hn : num ≤ u.length + 1 := by
        simp only [List.length_nil] at hl
        omega
      rw [if_pos hn]
      rcases u with _ | ⟨a, u2⟩
      · have ih := takeExceptLastGo_full num xs [] x []
          (by simp only [List.length_nil, List.length_cons] at hl ⊢; omega)
        simp only [List.length_nil, List.nil_append] at ih
        simp [ih, List.take_succ_cons]
      · have ih := takeExceptLastGo_full num xs [] a (u2 ++ [x]) (by
          simp only [List.length_nil, List.length_cons, List.length_append] at hl ⊢
          omega)
        simp only [List.length_nil, List.nil_append] at ih
        have hshape : (a :: u2) ++ x :: ([] : List α) = a :: (u2 ++ [x]) := by simp
        rw [hshape, ih]
        simp [List.take_succ_cons]
    · have hn : ¬ num ≤ u.length + 1 := by
        simp only [List.length_cons] at hl
        omega
      rw [if_neg hn]
      have ih := takeExceptLastGo_full num xs (u ++ [x]) c v2 (by
        simp only [List.length_append, List.length_cons, List.length_nil] at hl ⊢
        omega)
      have hi : (u ++ [x]).length = u.length + 1 := by simp
      rw [hi] at ih
      have hb : u ++ x :: c :: v2 = (u ++ [x]) ++ c :: v2 := by simp
      rw [hb, ih]
      simp [List.take_succ_cons]

/-- While the circular buffer of `takeExceptLast` is still filling (cursor at
`buf.length < num`), nothing has been emitted yet and the overall result is the
delayed stream truncated to `length - num` elements. -/
theorem takeExceptLastGo_fill (num : Nat) :
    ∀ (xs buf : List α), buf.length < num →
      takeExceptLastGo num xs buf.length buf =
        (buf ++ xs).take (buf.length + xs.length - num)
  | [], buf, h => by
    simp only [takeExceptLastGo, List.length_nil, Nat.add_zero]
    rw [Nat.sub_eq_zero_of_le (Nat.le_of_lt h), List.take_zero]
  | x :: xs, buf, h => by
    have hyield : ¬ num ≤ buf.length := by omega
    have hwrite : bufWrite buf buf.length x = buf ++ [x] := by
      rw [bufWrite, if_neg (by omega)]
    rw [takeExceptLastGo, if_neg hyield, hwrite]
    simp only [List.nil_append]
    by_cases hfull : num ≤ buf.length + 1
    · have hnum : num = buf.length + 1 := by omega
      rw [if_pos hfull]
      rcases buf with _ | ⟨a, buf2⟩
      · have ih := takeExceptLastGo_full num xs [] x []
          (by simp only [List.length_nil, List.length_cons] at hnum ⊢; omega)
        simp only [List.length_nil, List.nil_append] at ih ⊢
        rw [ih, hnum]
        simp
      · have ih := takeExceptLastGo_full num xs [] a (buf2 ++ [x]) (by
          simp only [List.length_nil, List.length_cons, List.length_append] at hnum ⊢
          omega)
        simp only [List.length_nil, List.nil_append] at ih
        rw [List.cons_append, ih, hnum]
        simp only [List.append_assoc, List.cons_append, List.nil_append,
          List.append_nil, List.length_cons, List.take_succ_cons]
        rw [List.take_eq_take]
        omega
    · rw [if_neg hfull]
      have hi : (buf ++ [x]).length = buf.length + 1 := by simp
      have ih := takeExceptLastGo_fill num xs (buf ++ [x]) (by omega)
      rw [hi] at ih
      rw [ih]
      simp only [List.append_assoc, List.cons_append, List.nil_append,
        List.length_cons]
      rw [List.take_eq_take]
      omega

/-- The behaviour of `takeExceptLast(iter, n)` on finite input: for `n ≤ 0`
the input is passed through unchanged; for `n > 0` the trailing `n` elements
are withheld. -/
theorem takeExceptLast_eq (l : List α) (num : Int) :
    takeExceptLast l num =
      if num ≤ 0 then l else l.take (l.length - num.toNat) := by
  rw [takeExceptLast]
  by_cases h : num ≤ 0
  · rw [if_pos h, if_pos h]
  · rw [if_neg h, if_neg h]
    have hpos : 0 < num.toNat := by omega
    have := takeExceptLastGo_fill (α := α) num.toNat l [] (by simpa using hpos)
    simpa using this

/-- C7: `takeExceptLast(seq, n)` yields the elements of `seq` except the
trailing `n` (the first `count(seq) - n` elements, each emitted with a delay of
`n` source elements) when `n > 0`, and passes the input through unchanged when
`n ≤ 0`. -/
theorem c7_takeExceptLast (l : List α) (n : Int) :
    (0 < n → takeExceptLast l n = l.take (l.length - n.toNat)) ∧
      (n ≤ 0 → takeExceptLast l n = l) := by
  constructor
  · intro h
    rw [takeExceptLast_eq, if_neg (by omega)]
  · intro h
    rw [takeExceptLast_eq, if_pos h]

/-- C7 witness: `takeExceptLast([1,2,3,4,5], 2) = [1,2,3]`, and `n = 0` is a
passthrough. -/
theorem c7_witness :
    takeExceptLast [1, 2, 3, 4, 5] (2 : Int) = [1, 2, 3] ∧
      takeExceptLast [1, 2, 3, 4, 5] (0 : Int) = [1, 2, 3, 4, 5] := by
  constructor
  · have h := (c7_takeExceptLast [1, 2, 3, 4, 5] (2 : Int)).1 (by decide)
    simpa using h
  · exact (c7_takeExceptLast [1, 2, 3, 4, 5] (0 : Int)).2 (by decide)

/-! ## C9: empty-input scalar queries return the sentinel -/

/-- C9: `first` and `last` on an empty sequence, `nth` with a negative or
out-of-range index, and `max` on an empty sequence all return the `undefined`
sentinel (`none`) rather than failing. -/
theorem c9_sentinel_queries [LT α] [DecidableRel (α := α) (· < ·)]
    (l : List α) (i : Int) :
    first ([] : List α) = none ∧
      last ([] : List α) = none ∧
      (i < 0 → nth l i = none) ∧
      ((l.length : Int) ≤ i → nth l i = none) ∧
      max ([] : List α) = none := by
  refine ⟨rfl, rfl, ?_, ?_, rfl⟩
  · intro h
    rw [nth, if_neg (by omega)]
  · intro h
    rw [nth, if_pos (by omega), drop_eq, first_eq_head?, List.head?_drop]
    exact List.getElem?_eq_none (by omega)

/-- C9 witness: the five sentinel cases at concrete inputs
(`first`/`last`/`max` on `[]`, `nth [5] (-1)`, `nth [5] 7`). -/
theorem c9_witness :
    first ([] : List Nat) = none ∧
      last ([] : List Nat) = none ∧
      nth [5] (-1 : Int) = none ∧
      nth [5] (7 : Int) = none ∧
      max ([] : List Nat) = none :=
  ⟨(c9_sentinel_queries [5] (-1)).1,
    (c9_sentinel_queries [5] (-1)).2.1,
    (c9_sentinel_queries [5] (-1)).2.2.1 (by decide),
    (c9_sentinel_queries [5] (7)).2.2.2.1 (by decide),
    (c9_sentinel_queries [5] (7)).2.2.2.2⟩

/-! ## C4: `transpose` -/

/-- The width computation of the spec, stated in the spec's words:
`width = max(count(row) for row in seq)`, with an empty input giving no
columns. -/
def specWidth (l : List (List α)) : Nat :=
  (l.map List.length).foldl Nat.max 0

/-- `transpose` as described by the spec: for each column index `x` from `0`
to `width - 1`, the row of `nth(row, x)` for every row in order, short rows
contributing the "no value" sentinel. -/
def transposeSpec (l : List (List α)) : List (List (Option α)) :=
  (List.range (specWidth l)).map fun x => l.map fun row => row.get? x

theorem max_foldl_nat (l : List Nat) (m : Nat) :
    l.foldl maxStep (some m) = some (l.foldl Nat.max m) := by
  induction l generalizing m with
  | nil => rfl
  | cons x xs ih =>
    simp only [List.foldl_cons]
    rw [show maxStep (some m) x = some (Nat.max m x) by
      rw [maxStep]
      rcases Nat.lt_or_ge m x with h | h
      · rw [if_pos h]
        exact congrArg some (Nat.max_eq_right (Nat.le_of_lt h)).symm
      · rw [if_neg (Nat.not_lt.mpr h)]
        exact congrArg some (Nat.max_eq_left h).symm]
    exact ih (Nat.max m x)

theorem max_cons_nat (a : Nat) (ys : List Nat) :
    max (a :: ys) = some (ys.foldl Nat.max a) := by
  rw [max, List.foldl_cons, show maxStep none a = some a from rfl]
  exact max_foldl_nat ys a

/-- C4: `transpose` agrees with the spec's description: one emitted row per
column index below the maximum row length (`specWidth`), each row consisting of
`nth(row, x)` for every input row in order (`none` past the end of a short
row). -/
theorem c4_transpose (l : List (List α)) : transpose l = transposeSpec l := by
  cases l with
  | nil => rfl
  | cons r rs =>
    have hmap : (r :: rs).map (fun row => count row) = r.length :: rs.map List.length := by
      simp [count_eq_length]
    have hw : specWidth (r :: rs) = (rs.map List.length).foldl Nat.max r.length := by
      rw [specWidth]
      simp only [List.map_cons, List.foldl_cons]
      congr 1
      exact Nat.max_eq_right (Nat.zero_le r.length)
    rw [transpose, hmap, max_cons_nat, transposeSpec, hw]
    show (List.range ((rs.map List.length).foldl Nat.max r.length)).map
        (fun x => (r :: rs).map fun row => nth row (Int.ofNat x)) = _
    congr 1
    funext x
    congr 1
    funext row
    rw [nth_eq_get?]

/-- C4 second reading (the spec's worked example):
`transpose([[1,2,3],[4,5,6]])` yields `[[1,4],[2,5],[3,6]]`. -/
theorem c4_example :
    transpose [[1, 2, 3], [4, 5, 6]] =
      [[some 1, some 4], [some 2, some 5], [some 3, some 6]] := by
  decide

/-! ## C8: `sorted` under the default comparator -/

/-- A model of the JavaScript runtime values distinguished by the default
comparator: booleans, numbers (modelled as integers), strings (modelled as
their character sequences, so that `<` is the host's lexicographic code-unit
order), `null`, `undefined`, and all remaining "object-like" values (objects,
arrays, functions), carrying an identity tag so that distinct objects remain
distinct values. -/
inductive JSVal where
  | vBool (b : Bool)
  | vNum (n : Int)
  | vStr (s : List Char)
  | vNull
  | vUndef
  | vObj (id : Nat)
deriving DecidableEq

/-- `sortType` from the source: `boolean ↦ 0`, `bigint`/`number ↦ 1`,
`string ↦ 2`, `undefined ↦ 5`, `null ↦ 4`, and every other `typeof` falls
through to `3`. -/
def sortType : JSVal → Int
  | .vBool _ => 0
  | .vNum _ => 1
  | .vStr _ => 2
  | .vUndef => 5
  | .vNull => 4
  | .vObj _ => 3

/-- The JavaScript `<` comparison restricted to operands of equal primitive
type — the only way the default comparator uses it: numeric order on booleans
(`false < true`), integer order on numbers, lexicographic order on strings. -/
def jsLt : JSVal → JSVal → Bool
  | .vBool a, .vBool b => !a && b
  | .vNum a, .vNum b => decide (a < b)
  | .vStr a, .vStr b => decide (a < b)
  | _, _ => false

/-- The default comparator of `sorted`: the rank difference across distinct
`sortType`s, `0` within any rank `≥ 3`, and `a > b ? 1 : a < b ? -1 : 0`
within ranks 0–2. -/
def defaultComparator (a b : JSVal) : Int :=
  if sortType a ≠ sortType b then sortType a - sortType b
  else if 3 ≤ sortType a then 0
  else if jsLt b a then 1 else if jsLt a b then -1 else 0

/-- The order realized by `arr.sort(comparator)`: `a` may stay before `b`
exactly when the comparator does not demand the swap. -/
def compLe (a b : JSVal) : Prop :=
  defaultComparator a b ≤ 0

instance : DecidableRel compLe := fun _ _ => inferInstanceAs (Decidable (_ ≤ _))

/-- `sorted(iter)` with the default `by` and comparator: materialize, sort by
the comparator, then emit the sorted array.  `Array.prototype.sort` with a
consistent comparator is modelled by the stable `insertionSort`. -/
def sorted (l : List JSVal) : List JSVal :=
  List.insertionSort compLe l

/-- The rank order stated by the spec: boolean < number/numeric < string <
"other" < null < undefined. -/
def specRank : JSVal → Nat
  | .vBool _ => 0
  | .vNum _ => 1
  | .vStr _ => 2
  | .vObj _ => 3
  | .vNull => 4
  | .vUndef => 5

/-- The order described by the spec: strictly lower rank first; within the
boolean/number/string ranks the ordinary order of the host values; all
"other"-rank values (and `null`s, and `undefined`s) mutually equal. -/
def specLe (a b : JSVal) : Prop :=
  specRank a < specRank b ∨
    (specRank a = specRank b ∧
      match a, b with
      | .vBool x, .vBool y => x ≤ y
      | .vNum x, .vNum y => x ≤ y
      | .vStr x, .vStr y => x ≤ y
      | _, _ => True)

theorem compLe_iff : ∀ a b : JSVal, compLe a b ↔ specLe a b := by
  intro a b
  cases a <;> cases b <;>
    simp [compLe, defaultComparator, sortType, specRank, specLe, jsLt, not_lt] <;>
    try omega
  · rename_i x y
    cases x <;> cases y <;> decide
  · rename_i p q
    rcases lt_trichotomy p q with h | h | h
    · rw [if_neg (lt_asymm h), if_pos h]
      exact iff_of_true (by norm_num) (le_of_lt h)
    · rw [if_neg (by rw [h]; exact lt_irrefl _), if_neg (by rw [h]; exact lt_irrefl _)]
      exact iff_of_true (by norm_num) (le_of_eq h)
    · rw [if_pos h]
      exact iff_of_false (by norm_num) (not_le.mpr h)

theorem specLe_total : ∀ a b : JSVal, specLe a b ∨ specLe b a := by
  intro a b
  cases a <;> cases b <;> simp [specLe, specRank]
  all_goals exact le_total _ _

theorem specLe_trans : ∀ a b c : JSVal, specLe a b → specLe b c → specLe a c := by
  intro a b c hab hbc
  rcases hab with h1 | ⟨e1, w1⟩
  · rcases hbc with h2 | ⟨e2, w2⟩
    · exact Or.inl (lt_trans h1 h2)
    · exact Or.inl (by omega)
  · rcases hbc with h2 | ⟨e2, w2⟩
    · exact Or.inl (by omega)
    · refine Or.inr ⟨by omega, ?_⟩
      cases a <;> cases b <;> cases c <;>
        simp_all [specRank] <;>
        exact le_trans w1 w2

instance : IsTotal JSVal compLe :=
  ⟨fun a b => by
    rw [compLe_iff, compLe_iff]
    exact specLe_total a b⟩

instance : IsTrans JSVal compLe :=
  ⟨fun a b c hab hbc => by
    rw [compLe_iff] at hab hbc ⊢
    exact specLe_trans a b c hab hbc⟩

/-- C8: `sorted` under the default comparator produces a permutation of the
input that is sorted by the spec's rank order (boolean < number < string <
"other" < null < undefined, ordinary `<`/`>` within the primitive ranks); all
"other"-rank values compare equal regardless of identity; and the spec's
worked example sorts as stated. -/
theorem c8_sorted_default_comparator (l : List JSVal) :
    (sorted l).Perm l ∧
      List.Sorted specLe (sorted l) ∧
      (∀ a b : JSVal, sortType a = 3 → sortType b = 3 → defaultComparator a b = 0) ∧
      sorted [.vBool true, .vStr ['b'], .vNum 3, .vNull, .vUndef, .vStr ['a'], .vBool false] =
        [.vBool false, .vBool true, .vNum 3, .vStr ['a'], .vStr ['b'], .vNull, .vUndef] := by
  refine ⟨List.perm_insertionSort compLe l, ?_, ?_, ?_⟩
  · exact (List.sorted_insertionSort compLe l).imp fun h => (compLe_iff _ _).mp h
  · intro a b ha hb
    cases a <;> cases b <;> simp_all [sortType, defaultComparator]
  · decide

/-- C8 witness: two object-like values of distinct identity compare equal
under the default comparator. -/
theorem c8_witness : defaultComparator (.vObj 0) (.vObj 1) = 0 :=
  (c8_sorted_default_comparator []).2.2.1 (.vObj 0) (.vObj 1) rfl rfl

/-! ## C3: restartability of lazy-built wrappers -/

/-- Modelled from the spec: the Sequence Wrapper `It` and the builder `genIt`
live in `src/It.ts`, which is not among the given sources.  Per §§4.1 and 6 of
the spec, a wrapper holds either a single-use traversal cursor (exhausted by
one pass) or a lazy traversal recipe re-invoked afresh on every traversal; a
deterministic, side-effect-free recipe over an unchanged re-traversable source
is modelled as a pure function producing the sequence of its suspend-point
yields. -/
inductive ItSource (α : Type u) where
  | singleUse (remaining : List α)
  | lazyRecipe (recipe : Unit → List α)

/-- Modelled from the spec: one full traversal (`toArray`) of a wrapper,
returning the observed elements together with the wrapper state afterwards.
A single-use cursor is left exhausted; a lazy wrapper invokes `recipe()` anew
and is left exactly as built. -/
def traverseOnce : ItSource α → List α × ItSource α
  | .singleUse xs => (xs, .singleUse [])
  | .lazyRecipe r => (r (), .lazyRecipe r)

/-- Modelled from the spec: `genIt(recipe)` wraps a traversal recipe as a
restartable Sequence Wrapper. -/
def genIt (recipe : Unit → List α) : ItSource α :=
  .lazyRecipe recipe

/-- C3: two separate full traversals of the same lazy-built wrapper over a
deterministic recipe return identical arrays, and the first traversal leaves
the wrapper exactly as built — no state is shared between the traversals.  A
single-use source, by contrast, is exhausted by its first traversal. -/
theorem c3_lazy_restartable (recipe : Unit → List α) :
    (traverseOnce (genIt recipe)).1 =
        (traverseOnce (traverseOnce (genIt recipe)).2).1 ∧
      (traverseOnce (genIt recipe)).2 = genIt recipe ∧
      ∀ x : α, ∀ xs : List α,
        (traverseOnce (traverseOnce (ItSource.singleUse (x :: xs))).2).1 ≠
          (traverseOnce (ItSource.singleUse (x :: xs))).1 :=
  ⟨rfl, rfl, fun _ _ => List.noConfusion⟩

/-! ## C10: array identity of yielded windows -/

/-- A heap of JavaScript arrays: an address indexes the store, and
`new It(a)` hands out the address of `a` (the wrapper aliases the array, it
does not copy it). -/
structure Store (α : Type u) where
  arrays : List (List α)
deriving DecidableEq

/-- Read the array at address `r`. -/
def readA (st : Store α) (r : Nat) : List α :=
  (st.arrays.get? r).getD []

/-- Overwrite the array at address `r` in place. -/
def writeA (st : Store α) (r : Nat) (xs : List α) : Store α :=
  ⟨st.arrays.set r xs⟩

/-- Allocate a fresh array, returning its address. -/
def alloc (st : Store α) (xs : List α) : Nat × Store α :=
  (st.arrays.length, ⟨st.arrays ++ [xs]⟩)

/-- The `slicesOf` generator with explicit array identity: `temp` is an
address, `temp.push(x)` writes through it, `yield new It(temp)` emits the
address together with the contents observed at the instant of the yield, and
`temp = []` rebinds `temp` to a freshly allocated array. -/
def slicesOfSGo (size : Nat) : List α → Nat → Store α → List (Nat × List α) × Store α
  | [], r, st =>
    (if 0 < (readA st r).length ∨ size = 0 then [(r, readA st r)] else [], st)
  | x :: xs, r, st =>
    let st1 := if (readA st r).length < size then writeA st r (readA st r ++ [x]) else st
    if (readA st1 r).length = size then
      let res := slicesOfSGo size xs (alloc st1 []).1 (alloc st1 []).2
      ((r, readA st1 r) :: res.1, res.2)
    else
      slicesOfSGo size xs r st1

/-- `slicesOf` on the array heap, starting from the store holding only the
freshly allocated `temp`. -/
def slicesOfS (l : List α) (size : Nat) : List (Nat × List α) × Store α :=
  slicesOfSGo size l 0 ⟨[[]]⟩

/-- The `slicesOfOverlapping` loop with explicit array identity: the single
buffer lives at address `r`; `push` and `shift` write through it, and each
yield allocates a fresh copy (`new It([...temp])`) and emits that fresh
address. -/
def slicesOfOverlappingSGo (size : Nat) :
    List α → Nat → Store α → List (Nat × List α) × Store α
  | [], _, st => ([], st)
  | x :: xs, r, st =>
    let st1 := writeA st r (readA st r ++ [x])
    let st2 :=
      if size < (readA st1 r).length then writeA st1 r (readA st1 r).tail else st1
    if (readA st2 r).length = size then
      let res := slicesOfOverlappingSGo size xs r (alloc st2 (readA st2 r)).2
      (((alloc st2 (readA st2 r)).1, readA st2 r) :: res.1, res.2)
    else
      slicesOfOverlappingSGo size xs r st2

/-- `slicesOfOverlapping` on the array heap, including the initial
`size === 0` yield of a fresh copy of the empty buffer. -/
def slicesOfOverlappingS (l : List α) (size : Nat) : List (Nat × List α) × Store α :=
  if size = 0 then
    let res := slicesOfOverlappingSGo size l 0 ⟨[[], []]⟩
    ((1, []) :: res.1, res.2)
  else
    slicesOfOverlappingSGo size l 0 ⟨[[]]⟩

/-- The JavaScript swap `[arr[j], arr[i]] = [arr[i], arr[j]]` on a list,
a no-op when either index is out of range (in the algorithms below both
indices are always in range). -/
def swapL (l : List α) (j i : Nat) : List α :=
  match l.get? j, l.get? i with
  | some a, some b => (l.set j b).set i a
  | _, _ => l

/-- The `permutations` loop with explicit array identity: the single backing
array lives at address `r`, every swap writes through it, and every
`yield new It(arr)` emits that same address. -/
def permutationsSGo (r : Nat) :
    Nat → List Nat → Nat → Store α → Option (List (Nat × List α) × Store α)
  | 0, _, _, _ => none
  | fuel + 1, c, i, st =>
    if i < (readA st r).length then
      if c.getD i 0 < i then
        let j := if i % 2 = 0 then 0 else c.getD i 0
        let st1 := writeA st r (swapL (readA st r) j i)
        match permutationsSGo r fuel (c.set i (c.getD i 0 + 1)) 0 st1 with
        | none => none
        | some (ys, st2) => some ((r, readA st1 r) :: ys, st2)
      else
        permutationsSGo r fuel (c.set i 0) (i + 1) st
    else
      some ([], st)

/-- `permutations` on the array heap: materialize the input at a fresh
address, yield it once, then run the swap loop (with fuel for the `while`). -/
def permutationsS (l : List α) (fuel : Nat) : Option (List (Nat × List α) × Store α) :=
  match permutationsSGo 0 fuel (List.replicate l.length 0) 0 ⟨[l]⟩ with
  | none => none
  | some (ys, st2) => some ((0, l) :: ys, st2)

theorem readA_writeA_ne (st : Store α) (r q : Nat) (xs : List α) (h : q ≠ r) :
    readA (writeA st r xs) q = readA st q := by
  simp [readA, writeA, List.getElem?_set_ne (Ne.symm h)]

theorem writeA_length (st : Store α) (r : Nat) (xs : List α) :
    (writeA st r xs).arrays.length = st.arrays.length := by
  simp [writeA]

theorem readA_alloc_old (st : Store α) (xs : List α) (q : Nat)
    (h : q < st.arrays.length) :
    readA (alloc st xs).2 q = readA st q := by
  simp [readA, alloc, List.getElem?_append_left h]

theorem readA_alloc_new (st : Store α) (xs : List α) :
    readA (alloc st xs).2 st.arrays.length = xs := by
  simp [readA, alloc, List.getElem?_concat_length]

/-- Frame property of the `slicesOf` generator: provided `temp` is the most
recently allocated array, the generator never shrinks the store, never writes
to any other previously allocated array, and the content of every yielded
address still equals its at-yield snapshot when the generator finishes. -/
theorem slicesOfSGo_frame (size : Nat) :
    ∀ (xs : List α) (r : Nat) (st : Store α), r + 1 = st.arrays.length →
      st.arrays.length ≤ (slicesOfSGo size xs r st).2.arrays.length ∧
        (∀ q, q < st.arrays.length → q ≠ r →
          readA (slicesOfSGo size xs r st).2 q = readA st q) ∧
        ∀ p ∈ (slicesOfSGo size xs r st).1,
          readA (slicesOfSGo size xs r st).2 p.1 = p.2
  | [], r, st, _ => by
    refine ⟨Nat.le_refl _, fun q _ _ => rfl, ?_⟩
    intro p hp
    simp only [slicesOfSGo] at hp ⊢
    split at hp
    · rcases List.mem_singleton.mp hp with rfl
      rfl
    · exact absurd hp (List.not_mem_nil p)
  | x :: xs, r, st, hr => by
    have hrlt : r < st.arrays.length := by omega
    simp only [slicesOfSGo]
    generalize hst1 :
      (if (readA st r).length < size then writeA st r (readA st r ++ [x]) else st) = st1
    have hlen1 : st1.arrays.length = st.arrays.length := by
      rw [← hst1]
      split
      · exact writeA_length st r _
      · rfl
    have hread1 : ∀ q, q ≠ r → readA st1 q = readA st q := by
      intro q hq
      rw [← hst1]
      split
      · exact readA_writeA_ne st r q _ hq
      · rfl
    split
    · dsimp only
      have halen : (alloc st1 ([] : List α)).2.arrays.length = st1.arrays.length + 1 := by
        simp [alloc]
      obtain ⟨ihm, ihq, ihy⟩ :=
        slicesOfSGo_frame size xs (alloc st1 []).1 (alloc st1 []).2 (by simp [alloc])
      refine ⟨by omega, ?_, ?_⟩
      · intro q hq hqr
        rw [ihq q (by omega) (by simp only [alloc]; omega),
          readA_alloc_old st1 [] q (by omega), hread1 q hqr]
      · intro p hp
        rcases List.mem_cons.mp hp with rfl | hp
        · rw [ihq r (by omega) (by simp only [alloc]; omega),
            readA_alloc_old st1 [] r (by omega)]
        · exact ihy p hp
    · obtain ⟨ihm, ihq, ihy⟩ := slicesOfSGo_frame size xs r st1 (by omega)
      refine ⟨by omega, ?_, ihy⟩
      intro q hq hqr
      rw [ihq q (by omega) hqr, hread1 q hqr]

/-- Frame property of the `slicesOfOverlapping` loop: the buffer address `r`
is the only previously allocated array ever written, and every yielded fresh
copy keeps its at-yield contents until the loop finishes. -/
theorem slicesOfOverlappingSGo_frame (size : Nat) :
    ∀ (xs : List α) (r : Nat) (st : Store α), r < st.arrays.length →
      st.arrays.length ≤ (slicesOfOverlappingSGo size xs r st).2.arrays.length ∧
        (∀ q, q < st.arrays.length → q ≠ r →
          readA (slicesOfOverlappingSGo size xs r st).2 q = readA st q) ∧
        ∀ p ∈ (slicesOfOverlappingSGo size xs r st).1,
          readA (slicesOfOverlappingSGo size xs r st).2 p.1 = p.2
  | [], _, _, _ => ⟨Nat.le_refl _, fun _ _ _ => rfl, fun p hp => absurd hp (List.not_mem_nil p)⟩
  | x :: xs, r, st, hrlt => by
    simp only [slicesOfOverlappingSGo]
    generalize hst2 :
      (if size < (readA (writeA st r (readA st r ++ [x])) r).length then
        writeA (writeA st r (readA st r ++ [x])) r
          (readA (writeA st r (readA st r ++ [x])) r).tail
      else writeA st r (readA st r ++ [x])) = st2
    have hlen2 : st2.arrays.length = st.arrays.length := by
      rw [← hst2]
      split
      · rw [writeA_length, writeA_length]
      · exact writeA_length st r _
    have hread2 : ∀ q, q ≠ r → readA st2 q = readA st q := by
      intro q hq
      rw [← hst2]
      split
      · rw [readA_writeA_ne _ r q _ hq, readA_writeA_ne st r q _ hq]
      · exact readA_writeA_ne st r q _ hq
    split
    · dsimp only
      have halen :
          (alloc st2 (readA st2 r)).2.arrays.length = st2.arrays.length + 1 := by
        simp [alloc]
      obtain ⟨ihm, ihq, ihy⟩ :=
        slicesOfOverlappingSGo_frame size xs r (alloc st2 (readA st2 r)).2 (by omega)
      refine ⟨by omega, ?_, ?_⟩
      · intro q hq hqr
        rw [ihq q (by omega) hqr, readA_alloc_old st2 _ q (by omega), hread2 q hqr]
      · intro p hp
        rcases List.mem_cons.mp hp with rfl | hp
        · have hrc : (alloc st2 (readA st2 r)).1 = st2.arrays.length := rfl
          rw [ihq _ (by rw [hrc]; omega) (by rw [hrc]; omega), hrc, readA_alloc_new]
        · exact ihy p hp
    · obtain ⟨ihm, ihq, ihy⟩ := slicesOfOverlappingSGo_frame size xs r st2 (by omega)
      refine ⟨by omega, ?_, ihy⟩
      intro q hq hqr
      rw [ihq q (by omega) hqr, hread2 q hqr]

/-! ### Lemmas about the JavaScript swap -/

theorem swapL_length (l : List α) (j i : Nat) : (swapL l j i).length = l.length := by
  rw [swapL]
  split
  · simp
  · rfl

theorem swapL_get?_fst (l : List α) (j i : Nat) (hj : j < l.length) (hi : i < l.length) :
    (swapL l j i).get? j = l.get? i := by
  rw [swapL, List.get?_eq_get hj, List.get?_eq_get hi]
  by_cases hij : j = i
  · subst hij
    rw [List.get?_eq_getElem?, List.getElem?_set_eq_of_lt _ (by simpa using hj)]
  · rw [List.get?_eq_getElem?, List.getElem?_set_ne (fun h => hij h.symm),
      List.getElem?_set_eq_of_lt _ (by simpa using hj)]

theorem swapL_get?_snd (l : List α) (j i : Nat) (hj : j < l.length) (hi : i < l.length) :
    (swapL l j i).get? i = l.get? j := by
  rw [swapL, List.get?_eq_get hj, List.get?_eq_get hi, List.get?_eq_getElem?,
    List.getElem?_set_eq_of_lt _ (by simpa using hi)]

theorem swapL_get?_other (l : List α) (j i p : Nat) (hpj : p ≠ j) (hpi : p ≠ i) :
    (swapL l j i).get? p = l.get? p := by
  rw [swapL]
  split
  · simp [List.get?_eq_getElem?, List.getElem?_set_ne (Ne.symm hpi),
      List.getElem?_set_ne (Ne.symm hpj)]
  · rfl

theorem cons_set_perm :
    ∀ (xs : List α) (i : Nat) (x b : α), xs.get? i = some b →
      List.Perm (x :: xs) (b :: xs.set i x)
  | y :: t, 0, x, b, h => by
    obtain rfl : y = b := by simpa using h
    simpa using List.Perm.swap y x t
  | y :: t, i + 1, x, b, h => by
    have ht : t.get? i = some b := by simpa using h
    have hmain : List.Perm (x :: y :: t) (b :: y :: t.set i x) :=
      ((List.Perm.swap y x t).trans
        (List.Perm.cons y (cons_set_perm t i x b ht))).trans
        (List.Perm.swap b y (t.set i x))
    simpa using hmain

theorem set_set_perm :
    ∀ (l : List α) (j i : Nat) (a b : α),
      l.get? j = some a → l.get? i = some b → List.Perm ((l.set j b).set i a) l
  | [], _, _, _, _, ha, _ => by simp at ha
  | x :: xs, 0, 0, a, b, ha, hb => by
    obtain rfl : x = a := by simpa using ha
    obtain rfl : x = b := by simpa using hb
    simp
  | x :: xs, 0, i + 1, a, b, ha, hb => by
    obtain rfl : x = a := by simpa using ha
    have hb' : xs.get? i = some b := by simpa using hb
    simpa using (cons_set_perm xs i x b hb').symm
  | x :: xs, j + 1, 0, a, b, ha, hb => by
    obtain rfl : x = b := by simpa using hb
    have ha' : xs.get? j = some a := by simpa using ha
    simpa using (cons_set_perm xs j x a ha').symm
  | x :: xs, j + 1, i + 1, a, b, ha, hb => by
    have ha' : xs.get? j = some a := by simpa using ha
    have hb' : xs.get? i = some b := by simpa using hb
    simpa using List.Perm.cons x (set_set_perm xs j i a b ha' hb')

theorem swapL_perm (l : List α) (j i : Nat) : List.Perm (swapL l j i) l := by
  rw [swapL]
  cases ha : l.get? j with
  | none => exact List.Perm.refl l
  | some a =>
    cases hb : l.get? i with
    | none => exact List.Perm.refl l
    | some b => exact set_set_perm l j i a b ha hb

/-! ### The `permutations` loop and its recursive decomposition -/

/-- The `permutations` generator loop (`while (i < arr.length)`) with fuel:
`none` means the fuel ran out before the loop terminated.  Yields are value
snapshots of `arr` at the instant of each yield. -/
def iterGo : Nat → List α → List Nat → Nat → Option (List (List α))
  | 0, _, _, _ => none
  | fuel + 1, arr, c, i =>
    if i < arr.length then
      if c.getD i 0 < i then
        let arr1 := swapL arr (if i % 2 = 0 then 0 else c.getD i 0) i
        (iterGo fuel arr1 (c.set i (c.getD i 0 + 1)) 0).map (arr1 :: ·)
      else
        iterGo fuel arr (c.set i 0) (i + 1)
    else
      some []

/-- `permutations(iter)` with fuel: materialize, yield the identity order,
then run the loop. -/
def permutationsFuel (fuel : Nat) (l : List α) : Option (List (List α)) :=
  (iterGo fuel l (List.replicate l.length 0) 0).map (l :: ·)

/-- One full cycle of counter digit `k` starting at digit value `v`, with a
complete run `sub` of the digits below `k` between consecutive swaps: the
recursive structure of the iterative loop (fuel is `k - v`). -/
def finishGo (k : Nat) (sub : List α → List (List α) × List α) :
    Nat → Nat → List α → List (List α) × List α
  | 0, _, arr => ([], arr)
  | fuel + 1, v, arr =>
    if v < k then
      let arr1 := swapL arr (if k % 2 = 0 then 0 else v) k
      let r1 := sub arr1
      let r2 := finishGo k sub fuel (v + 1) r1.2
      (arr1 :: (r1.1 ++ r2.1), r2.2)
    else ([], arr)

/-- The complete run of counter digits `1 .. k-1` from zero: for an array of
length `k`, `arr :: (runD k arr).1` is the full yield sequence of
`permutations`. -/
def runD : Nat → List α → List (List α) × List α
  | 0, arr => ([], arr)
  | k + 1, arr =>
    let r1 := runD k arr
    let r2 := finishGo k (runD k) k 0 r1.2
    (r1.1 ++ r2.1, r2.2)

/-- Block-start arrays of the digit-`k` cycle: `ms k arr 0 = arr`, and block
`c + 1` starts by swapping position `k` of the previous block's final array
with position `0` (`k` even) or `c` (`k` odd). -/
def ms (k : Nat) (arr : List α) : Nat → List α
  | 0 => arr
  | c + 1 => swapL (runD k (ms k arr c)).2 (if k % 2 = 0 then 0 else c) k

/-- The climb of the iterative loop from digit `i` upward: finish the cycle
of digit `i` from its current value, then continue with the digits above
(fuel is `arr.length - i`). -/
def climbD (c : List Nat) : Nat → Nat → List α → List (List α) × List α
  | 0, _, arr => ([], arr)
  | s + 1, i, arr =>
    let r1 := finishGo i (runD i) (i - c.getD i 0) (c.getD i 0) arr
    let r2 := climbD c s (i + 1) r1.2
    (r1.1 ++ r2.1, r2.2)

/-! ### The index bookkeeping of the plain-changes run -/

/-- The net index permutation of a complete `runD k` run: position `p` of the
final array holds the element initially at position `finIdx k p`.  For odd
`k` this is the swap of positions `0` and `k - 1`; for even `k ≥ 4` it is a
single `k`-cycle. -/
def finIdx (k : Nat) (p : Nat) : Nat :=
  if k ≤ 1 then p
  else if k % 2 = 1 then
    if p = 0 then k - 1 else if p = k - 1 then 0 else p
  else if k = 2 then
    if p = 0 then 1 else if p = 1 then 0 else p
  else
    if p = 0 then k - 3
    else if p = 1 then k - 2
    else if p + 1 ≤ k - 2 then p - 1
    else if p = k - 2 then k - 1
    else if p = k - 1 then 0
    else p

/-- The index transformation of one block step of the digit-`k` cycle:
block `c + 1` reads position `p` from position `gStep k c p` of block `c`. -/
def gStep (k c p : Nat) : Nat :=
  if p = (if k % 2 = 0 then 0 else c) then k
  else if p = k then finIdx k (if k % 2 = 0 then 0 else c)
  else finIdx k p

/-- Closed form of the accumulated index transformation after `c` block steps
of the digit-`k` cycle, for odd `k`. -/
def psiA (k c p : Nat) : Nat :=
  if p = 0 then (if c % 2 = 1 then k else 0)
  else if p = k then
    (if c = 0 then k else if c = 1 then k - 1 else if c ≤ k - 1 then c - 1 else 0)
  else if p = k - 1 then
    (if c = 0 then k - 1 else if c ≤ k - 1 then (if c % 2 = 1 then 0 else k) else k - 2)
  else if p = 1 then (if c ≤ 1 then 1 else k - 1)
  else if 2 ≤ p ∧ p ≤ k - 2 then (if c ≤ p then p else p - 1)
  else p

/-- The cycle sequence of positions `0 .. k` visited by the block steps of
the digit-`k` cycle, for even `k`: position `k` first, then down the middle,
then `k - 2`, `k - 1`, and `0` last. -/
def sB (k j : Nat) : Nat :=
  if k = 2 then (if j ≤ 2 then 2 - j else 0)
  else if j = 0 then k
  else if j ≤ k - 3 then k - 2 - j
  else if j = k - 2 then k - 2
  else if j = k - 1 then k - 1
  else 0

/-- The inverse of `sB k` on `0 .. k`: the cycle position of array position
`p`. -/
def posB (k p : Nat) : Nat :=
  if k = 2 then (if p ≤ 2 then 2 - p else 0)
  else if p = k then 0
  else if 1 ≤ p ∧ p ≤ k - 3 then k - 2 - p
  else if p = k - 2 then k - 2
  else if p = k - 1 then k - 1
  else k

/-- Closed form of the accumulated index transformation after `c` block steps
of the digit-`k` cycle, for even `k`: advance `c` places along the cycle. -/
def psiB (k c p : Nat) : Nat :=
  if k < p then p else sB k ((posB k p + c) % (k + 1))

/-- The accumulated index transformation after `c` block steps: block `c`
reads position `p` from position `psi k c p` of block `0`. -/
def psi (k c p : Nat) : Nat :=
  if k % 2 = 1 then psiA k c p else psiB k c p

/-- The position whose element sits at position `k` throughout block `c` of
the digit-`k` cycle (`psi k c k` in closed form): the `k + 1` values are
pairwise distinct, which is why the blocks yield disjoint snapshots. -/
def eIdx (k c : Nat) : Nat :=
  if k % 2 = 1 then
    (if c = 0 then k else if c = k then 0 else if c = 1 then k - 1 else c - 1)
  else sB k c

/-! ### Elementary facts about `finishGo` and `runD` -/

theorem finishGo_length (k : Nat) (sub : List α → List (List α) × List α)
    (hsub : ∀ A, (sub A).2.length = A.length) :
    ∀ (fuel v : Nat) (arr : List α), (finishGo k sub fuel v arr).2.length = arr.length
  | 0, _, _ => rfl
  | fuel + 1, v, arr => by
    rw [finishGo]
    split
    · dsimp only
      rw [finishGo_length k sub hsub fuel (v + 1) _, hsub, swapL_length]
    · rfl

theorem runD_length : ∀ (k : Nat) (arr : List α), (runD k arr).2.length = arr.length
  | 0, _ => rfl
  | k + 1, arr => by
    rw [runD]
    dsimp only
    rw [finishGo_length k (runD k) (runD_length k) k 0, runD_length k]

theorem finishGo_suffix (k : Nat) (sub : List α → List (List α) × List α)
    (hfin : ∀ (A : List α) (p : Nat), k ≤ p → (sub A).2.get? p = A.get? p)
    (hout : ∀ (A : List α), ∀ out ∈ (sub A).1, ∀ p, k ≤ p → out.get? p = A.get? p) :
    ∀ (fuel v : Nat) (arr : List α),
      (∀ p, k + 1 ≤ p → (finishGo k sub fuel v arr).2.get? p = arr.get? p) ∧
        ∀ out ∈ (finishGo k sub fuel v arr).1, ∀ p, k + 1 ≤ p → out.get? p = arr.get? p
  | 0, _, _ => ⟨fun _ _ => rfl, by simp [finishGo]⟩
  | fuel + 1, v, arr => by
    rw [finishGo]
    split
    · dsimp only
      rename_i hv
      obtain ⟨ih1, ih2⟩ := finishGo_suffix k sub hfin hout fuel (v + 1)
        (sub (swapL arr (if k % 2 = 0 then 0 else v) k)).2
      have hswap : ∀ p, k + 1 ≤ p →
          (swapL arr (if k % 2 = 0 then 0 else v) k).get? p = arr.get? p := by
        intro p hp
        refine swapL_get?_other arr _ k p ?_ (by omega)
        split <;> omega
      constructor
      · intro p hp
        rw [ih1 p hp, hfin _ p (by omega), hswap p hp]
      · intro out hmem p hp
        rcases List.mem_cons.mp hmem with rfl | hmem
        · exact hswap p hp
        rcases List.mem_append.mp hmem with hmem | hmem
        · rw [hout _ out hmem p (by omega), hswap p hp]
        · rw [ih2 out hmem p hp, hfin _ p (by omega), hswap p hp]
    · exact ⟨fun _ _ => rfl, by simp⟩

theorem runD_suffix : ∀ (k : Nat) (arr : List α),
    (∀ p, k ≤ p → (runD k arr).2.get? p = arr.get? p) ∧
      ∀ out ∈ (runD k arr).1, ∀ p, k ≤ p → out.get? p = arr.get? p
  | 0, arr => ⟨fun _ _ => rfl, by simp [runD]⟩
  | k + 1, arr => by
    rw [runD]
    dsimp only
    obtain ⟨h1, h2⟩ := runD_suffix k arr
    obtain ⟨g1, g2⟩ := finishGo_suffix k (runD k)
      (fun A p hp => (runD_suffix k A).1 p hp)
      (fun A out hm p hp => (runD_suffix k A).2 out hm p hp)
      k 0 (runD k arr).2
    constructor
    · intro p hp
      rw [g1 p hp, h1 p (by omega)]
    · intro out hmem p hp
      rcases List.mem_append.mp hmem with hmem | hmem
      · exact h2 out hmem p (by omega)
      · rw [g2 out hmem p hp, h1 p (by omega)]

theorem finishGo_perm (k : Nat) (sub : List α → List (List α) × List α)
    (hfin : ∀ A : List α, List.Perm (sub A).2 A)
    (hout : ∀ A : List α, ∀ out ∈ (sub A).1, List.Perm out A) :
    ∀ (fuel v : Nat) (arr : List α),
      List.Perm (finishGo k sub fuel v arr).2 arr ∧
        ∀ out ∈ (finishGo k sub fuel v arr).1, List.Perm out arr
  | 0, _, _ => ⟨List.Perm.refl _, by simp [finishGo]⟩
  | fuel + 1, v, arr => by
    rw [finishGo]
    split
    · dsimp only
      obtain ⟨ih1, ih2⟩ := finishGo_perm k sub hfin hout fuel (v + 1)
        (sub (swapL arr (if k % 2 = 0 then 0 else v) k)).2
      have hsw : List.Perm (swapL arr (if k % 2 = 0 then 0 else v) k) arr :=
        swapL_perm arr _ k
      constructor
      · exact (ih1.trans (hfin _)).trans hsw
      · intro out hmem
        rcases List.mem_cons.mp hmem with rfl | hmem
        · exact hsw
        rcases List.mem_append.mp hmem with hmem | hmem
        · exact (hout _ out hmem).trans hsw
        · exact ((ih2 out hmem).trans (hfin _)).trans hsw
    · exact ⟨List.Perm.refl _, by simp⟩

theorem runD_perm : ∀ (k : Nat) (arr : List α),
    List.Perm (runD k arr).2 arr ∧ ∀ out ∈ (runD k arr).1, List.Perm out arr
  | 0, arr => ⟨List.Perm.refl _, by simp [runD]⟩
  | k + 1, arr => by
    rw [runD]
    dsimp only
    obtain ⟨h1, h2⟩ := runD_perm k arr
    obtain ⟨g1, g2⟩ := finishGo_perm k (runD k)
      (fun A => (runD_perm k A).1)
      (fun A out hm => (runD_perm k A).2 out hm)
      k 0 (runD k arr).2
    constructor
    · exact g1.trans h1
    · intro out hmem
      rcases List.mem_append.mp hmem with hmem | hmem
      · exact h2 out hmem
      · exact (g2 out hmem).trans h1

theorem finishGo_count (k : Nat) (sub : List α → List (List α) × List α)
    (L : Nat) (hsub : ∀ A : List α, (sub A).1.length = L) :
    ∀ (fuel v : Nat) (arr : List α), k ≤ v + fuel →
      (finishGo k sub fuel v arr).1.length = (k - v) * (L + 1)
  | 0, v, arr, hfv => by
    rw [Nat.sub_eq_zero_of_le (by omega)]
    simp [finishGo]
  | fuel + 1, v, arr, hfv => by
    rw [finishGo]
    split
    · dsimp only
      rename_i hv
      rw [List.length_cons, List.length_append, hsub,
        finishGo_count k sub L hsub fuel (v + 1) _ (by omega)]
      have hkv : k - v = (k - (v + 1)) + 1 := by omega
      rw [hkv]
      ring
    · rename_i hv
      rw [Nat.sub_eq_zero_of_le (by omega)]
      simp

theorem runD_count : ∀ (k : Nat) (arr : List α),
    (runD k arr).1.length = Nat.factorial k - 1
  | 0, _ => rfl
  | k + 1, arr => by
    rw [runD]
    dsimp only
    rw [List.length_append, runD_count k arr,
      finishGo_count k (runD k) (Nat.factorial k - 1) (fun A => runD_count k A) k 0
        (runD k arr).2 (by omega)]
    have hfac : 1 ≤ Nat.factorial k := Nat.one_le_iff_ne_zero.mpr (Nat.factorial_ne_zero k)
    have hF : Nat.factorial k - 1 + 1 = Nat.factorial k := by omega
    rw [Nat.sub_zero, hF, Nat.factorial_succ, Nat.succ_mul]
    generalize k * Nat.factorial k = P
    omega

/-! ### Arithmetic of the index bookkeeping -/

theorem finIdx_ge (k p : Nat) (h : k ≤ p) : finIdx k p = p := by
  rw [finIdx]
  split_ifs <;> omega

theorem finIdx_lt (k p : Nat) (h : p < k) : finIdx k p < k := by
  rw [finIdx]
  split_ifs <;> omega

theorem sB_le (k j : Nat) : sB k j ≤ k := by
  rw [sB]
  split_ifs <;> omega

theorem posB_le (k p : Nat) : posB k p ≤ k := by
  rw [posB]
  split_ifs <;> omega

theorem posB_sB (k j : Nat) (hk : k % 2 = 0) (hj : j ≤ k) : posB k (sB k j) = j := by
  rw [sB, posB]
  split_ifs <;> omega

theorem sB_posB (k p : Nat) (hk : k % 2 = 0) (hp : p ≤ k) : sB k (posB k p) = p := by
  rw [sB, posB]
  split_ifs <;> omega

theorem psi_zero (k p : Nat) : psi k 0 p = p := by
  rw [psi]
  split
  · rw [psiA]
    split_ifs <;> first | contradiction | omega
  · rename_i h
    have hk : k % 2 = 0 := by omega
    rw [psiB]
    split
    · rfl
    · rename_i hp
      have hlt : posB k p < k + 1 := Nat.lt_succ_of_le (posB_le k p)
      rw [Nat.add_zero, Nat.mod_eq_of_lt hlt, sB_posB k p hk (by omega)]

theorem psi_gt (k c p : Nat) (h : k < p) : psi k c p = p := by
  rw [psi]
  split
  · rw [psiA]
    split_ifs <;> first | contradiction | omega
  · rw [psiB, if_pos h]

/-- One step along the even-`k` cycle: the block-step transformation advances
the cycle position by one. -/
theorem gStep_even (k c p : Nat) (hk : k % 2 = 0) (hp : p ≤ k) :
    gStep k c p = sB k ((posB k p + 1) % (k + 1)) := by
  rw [gStep, if_pos hk]
  by_cases hp0 : p = 0
  · subst hp0
    rw [if_pos rfl]
    have hposb : posB k 0 = k := by
      rw [posB]
      split_ifs <;> omega
    have hs : sB k 0 = k := by
      rw [sB]
      split_ifs <;> omega
    rw [hposb, Nat.mod_self, hs]
  · rw [if_neg hp0]
    by_cases hk2 : k = 2
    · subst hk2
      interval_cases p
      · exact absurd rfl hp0
      · decide
      · decide
    · have hk4 : 4 ≤ k := by omega
      by_cases hpk : p = k
      · rw [if_pos hpk, hpk]
        have h1 : posB k k = 0 := by
          rw [posB]
          split_ifs <;> omega
        have hL : finIdx k 0 = k - 3 := by
          rw [finIdx]
          split_ifs <;> first | contradiction | omega
        have hR : sB k (0 + 1) = k - 3 := by
          rw [sB]
          split_ifs <;> first | contradiction | omega
        rw [h1, Nat.mod_eq_of_lt (by omega), hL, hR]
      · rw [if_neg hpk]
        by_cases hpk1 : p = k - 1
        · subst hpk1
          have h1 : posB k (k - 1) = k - 1 := by
            rw [posB]
            split_ifs <;> omega
          have hL : finIdx k (k - 1) = 0 := by
            rw [finIdx]
            split_ifs <;> first | contradiction | omega
          have hR : sB k (k - 1 + 1) = 0 := by
            rw [sB]
            split_ifs <;> first | contradiction | omega
          rw [h1, Nat.mod_eq_of_lt (by omega), hL, hR]
        · by_cases hpk2 : p = k - 2
          · subst hpk2
            have h1 : posB k (k - 2) = k - 2 := by
              rw [posB]
              split_ifs <;> omega
            have hL : finIdx k (k - 2) = k - 1 := by
              rw [finIdx]
              split_ifs <;> first | contradiction | omega
            have hR : sB k (k - 2 + 1) = k - 1 := by
              rw [sB]
              split_ifs <;> first | contradiction | omega
            rw [h1, Nat.mod_eq_of_lt (by omega), hL, hR]
          · have h1 : posB k p = k - 2 - p := by
              rw [posB]
              split_ifs <;> omega
            have hL : finIdx k p = if p = 1 then k - 2 else p - 1 := by
              rw [finIdx]
              split_ifs <;> first | contradiction | omega
            have hR : sB k (k - 2 - p + 1) = if p = 1 then k - 2 else p - 1 := by
              rw [sB]
              split_ifs <;> first | contradiction | omega
            rw [h1, Nat.mod_eq_of_lt (by omega), hL, hR]

theorem fin_odd (k : Nat) (hk : 3 ≤ k) (hodd : k % 2 = 1) (q : Nat) :
    finIdx k q = if q = 0 then k - 1 else if q = k - 1 then 0 else q := by
  rw [finIdx]
  split_ifs <;> first | contradiction | omega

theorem psiA_at_zero (k c : Nat) : psiA k c 0 = if c % 2 = 1 then k else 0 := by
  rw [psiA, if_pos rfl]

theorem psiA_at_k (k c : Nat) (hk : 1 ≤ k) :
    psiA k c k =
      if c = 0 then k else if c = 1 then k - 1 else if c ≤ k - 1 then c - 1 else 0 := by
  rw [psiA, if_neg (by omega), if_pos rfl]

theorem psiA_at_km1 (k c : Nat) (hk : 2 ≤ k) :
    psiA k c (k - 1) =
      if c = 0 then k - 1
      else if c ≤ k - 1 then (if c % 2 = 1 then 0 else k) else k - 2 := by
  rw [psiA, if_neg (by omega), if_neg (by omega), if_pos rfl]

theorem psiA_at_one (k c : Nat) (hk : 3 ≤ k) :
    psiA k c 1 = if c ≤ 1 then 1 else k - 1 := by
  rw [psiA, if_neg (by omega), if_neg (by omega), if_neg (by omega), if_pos rfl]

theorem psiA_at_mid (k c p : Nat) (h2 : 2 ≤ p) (hpk : p ≤ k - 2) (hk : 4 ≤ k) :
    psiA k c p = if c ≤ p then p else p - 1 := by
  rw [psiA, if_neg (by omega), if_neg (by omega), if_neg (by omega), if_neg (by omega),
    if_pos ⟨h2, hpk⟩]

theorem psi_step (k c p : Nat) (hc : c < k) :
    psi k (c + 1) p = psi k c (gStep k c p) := by
  by_cases hp : k < p
  · have hg : gStep k c p = p := by
      rw [gStep, if_neg (by split <;> omega), if_neg (by omega), finIdx_ge k p (by omega)]
    rw [hg, psi_gt k _ p hp, psi_gt k c p hp]
  · push_neg at hp
    rw [psi, psi]
    split
    · rename_i hodd
      have hginner : (if k % 2 = 0 then 0 else c) = c := if_neg (by omega)
      rw [gStep, hginner]
      by_cases hk1 : k = 1
      · subst hk1
        obtain rfl : c = 0 := by omega
        interval_cases p <;> decide
      · have hk3 : 3 ≤ k := by omega
        have hfin := fin_odd k hk3 hodd
        by_cases hpc : p = c
        · rw [if_pos hpc, hpc, psiA_at_k k c (by omega)]
          rcases Nat.lt_or_ge c 1 with h0 | h1
          · obtain rfl : c = 0 := by omega
            rw [psiA_at_zero]
            split_ifs <;> first | contradiction | omega
          rcases Nat.lt_or_ge c 2 with h1' | h2
          · obtain rfl : c = 1 := by omega
            rw [psiA_at_one k 2 hk3]
            split_ifs <;> first | contradiction | omega
          rcases Nat.lt_or_ge c (k - 1) with hmid | hhi
          · rw [psiA_at_mid k (c + 1) c h2 (by omega) (by omega)]
            split_ifs <;> first | contradiction | omega
          · have hce : c = k - 1 := by omega
            rw [hce, psiA_at_km1 k (k - 1 + 1) (by omega)]
            split_ifs <;> first | contradiction | omega
        · rw [if_neg hpc]
          by_cases hpk : p = k
          · rw [if_pos hpk, hpk, hfin c, psiA_at_k k (c + 1) (by omega)]
            by_cases hc0 : c = 0
            · subst hc0
              have harg : (if (0 : Nat) = 0 then k - 1 else if (0 : Nat) = k - 1 then 0 else 0) =
                  k - 1 := rfl
              rw [harg, psiA_at_km1 k 0 (by omega)]
              split_ifs <;> first | contradiction | omega
            · rw [if_neg hc0]
              by_cases hck : c = k - 1
              · rw [if_pos hck, psiA_at_zero]
                split_ifs <;> first | contradiction | omega
              · rw [if_neg hck]
                rcases Nat.lt_or_ge c 2 with h1 | h2
                · obtain rfl : c = 1 := by omega
                  rw [psiA_at_one k 1 hk3]
                  split_ifs <;> first | contradiction | omega
                · rw [psiA_at_mid k c c h2 (by omega) (by omega)]
                  split_ifs <;> first | contradiction | omega
          · rw [if_neg hpk]
            by_cases hp0 : p = 0
            · rw [hp0, hfin 0, if_pos rfl, psiA_at_zero, psiA_at_km1 k c (by omega)]
              split_ifs <;> first | contradiction | omega
            · by_cases hpk1 : p = k - 1
              · rw [hpk1, hfin (k - 1), if_neg (by omega), if_pos rfl, psiA_at_zero,
                  psiA_at_km1 k (c + 1) (by omega)]
                split_ifs <;> first | contradiction | omega
              · by_cases hp1 : p = 1
                · rw [hp1, hfin 1, if_neg (by omega), if_neg (by omega),
                    psiA_at_one k (c + 1) hk3, psiA_at_one k c hk3]
                  split_ifs <;> first | contradiction | omega
                · have h2 : 2 ≤ p := by omega
                  have hple : p ≤ k - 2 := by omega
                  rw [hfin p, if_neg hp0, if_neg hpk1,
                    psiA_at_mid k (c + 1) p h2 hple (by omega),
                    psiA_at_mid k c p h2 hple (by omega)]
                  split_ifs <;> first | contradiction | omega
    · rename_i heven
      have hk : k % 2 = 0 := by omega
      rw [psiB, if_neg (by omega), gStep_even k c p hk hp]
      have harg : (posB k p + 1) % (k + 1) ≤ k := Nat.le_of_lt_succ (Nat.mod_lt _ (by omega))
      rw [psiB, if_neg (Nat.not_lt.mpr (sB_le k _)), posB_sB k _ hk harg, Nat.mod_add_mod]
      have harith : posB k p + 1 + c = posB k p + (c + 1) := by omega
      rw [harith]

theorem posB_self (k : Nat) (hk : k % 2 = 0) : posB k k = 0 := by
  rw [posB]
  split_ifs <;> omega

/-- `finIdx k` at an interior position follows the even-`k` cycle. -/
theorem finIdx_even_cycle (k p : Nat) (hk : k % 2 = 0) (hp : p ≤ k) (hp0 : p ≠ 0)
    (hpk : p ≠ k) : finIdx k p = sB k ((posB k p + 1) % (k + 1)) := by
  have h := gStep_even k 0 p hk hp
  rw [gStep, if_pos hk, if_neg hp0, if_neg hpk] at h
  exact h

/-- `finIdx k 0` in terms of the even-`k` cycle (it is the successor of the
cycle position of `k`). -/
theorem finIdx_even_zero (k : Nat) (hk : k % 2 = 0) (hk1 : 1 ≤ k) :
    finIdx k 0 = sB k ((posB k k + 1) % (k + 1)) := by
  have h := gStep_even k 0 k hk (Nat.le_refl k)
  rw [gStep, if_pos hk, if_neg (by omega), if_pos rfl] at h
  exact h

set_option maxHeartbeats 1600000 in
/-- The closed composition identity behind the final-array formula: one more
full sub-run and the trailing swaps turn the digit-`k` accumulated map at
`c = k` composed with the digit-`k` sub-final into the digit-`(k+1)`
final map. -/
theorem psi_finIdx (k p : Nat) : finIdx (k + 1) p = psi k k (finIdx k p) := by
  by_cases hp : k + 1 ≤ p
  · rw [finIdx_ge (k + 1) p hp, finIdx_ge k p (by omega), psi_gt k k p (by omega)]
  push_neg at hp
  rw [psi]
  split
  · rename_i hodd
    by_cases hk1 : k = 1
    · subst hk1
      interval_cases p <;> decide
    · have hk3 : 3 ≤ k := by omega
      have hfin := fin_odd k hk3 hodd
      by_cases hp0 : p = 0
      · subst hp0
        have hL : finIdx (k + 1) 0 = k - 2 := by
          rw [finIdx]
          split_ifs <;> first | contradiction | omega
        have hR : finIdx k 0 = k - 1 := by
          rw [hfin 0]
          split_ifs <;> first | contradiction | omega
        rw [hL, hR, psiA_at_km1 k k (by omega)]
        split_ifs <;> first | contradiction | omega
      · by_cases hp1 : p = 1
        · subst hp1
          have hL : finIdx (k + 1) 1 = k - 1 := by
            rw [finIdx]
            split_ifs <;> first | contradiction | omega
          have hR : finIdx k 1 = 1 := by
            rw [hfin 1]
            split_ifs <;> first | contradiction | omega
          rw [hL, hR, psiA_at_one k k hk3]
          split_ifs <;> first | contradiction | omega
        · by_cases hpk1 : p = k - 1
          · rw [hpk1]
            have hL : finIdx (k + 1) (k - 1) = k := by
              rw [finIdx]
              split_ifs <;> first | contradiction | omega
            have hR : finIdx k (k - 1) = 0 := by
              rw [hfin (k - 1)]
              split_ifs <;> first | contradiction | omega
            rw [hL, hR, psiA_at_zero]
            split_ifs
            all_goals first | contradiction | omega
          · by_cases hpk : p = k
            · rw [hpk]
              have hL : finIdx (k + 1) k = 0 := by
                rw [finIdx]
                split_ifs <;> first | contradiction | omega
              rw [hL, finIdx_ge k k (Nat.le_refl k), psiA_at_k k k (by omega)]
              split_ifs <;> first | contradiction | omega
            · have h2 : 2 ≤ p := by omega
              have hle : p ≤ k - 2 := by omega
              have hL : finIdx (k + 1) p = p - 1 := by
                rw [finIdx]
                split_ifs <;> first | contradiction | omega
              have hR : finIdx k p = p := by
                rw [hfin p]
                split_ifs
                all_goals first | contradiction | omega
              rw [hL, hR, psiA_at_mid k k p h2 hle (by omega)]
              split_ifs <;> first | contradiction | omega
  · rename_i heven
    have hk : k % 2 = 0 := by omega
    by_cases hk0 : k = 0
    · subst hk0
      obtain rfl : p = 0 := by omega
      decide
    · have hk1 : 1 ≤ k := by omega
      have hKf : ∀ q, finIdx (k + 1) q =
          if q = 0 then k else if q = k then 0 else q := by
        intro q
        rw [finIdx]
        split_ifs <;> first | contradiction | omega
      by_cases hp0 : p = 0
      · subst hp0
        rw [hKf 0, if_pos rfl, finIdx_even_zero k hk hk1, posB_self k hk, psiB,
          if_neg (Nat.not_lt.mpr (sB_le k _)), posB_sB k _ hk
            (Nat.le_of_lt_succ (Nat.mod_lt _ (by omega))), Nat.mod_add_mod]
        have h1 : (0 + 1 + k) % (k + 1) = 0 := by
          have h2 : 0 + 1 + k = k + 1 := by omega
          rw [h2, Nat.mod_self]
        rw [h1, sB]
        split_ifs <;> first | contradiction | omega
      · by_cases hpk : p = k
        · rw [hpk]
          rw [hKf k, if_neg (by omega), if_pos rfl, finIdx_ge k k (Nat.le_refl k), psiB,
            if_neg (by omega), posB_self k hk, Nat.zero_add,
            Nat.mod_eq_of_lt (by omega), sB]
          split_ifs <;> first | contradiction | omega
        · rw [hKf p, if_neg hp0, if_neg hpk,
            finIdx_even_cycle k p hk (by omega) hp0 hpk, psiB,
            if_neg (Nat.not_lt.mpr (sB_le k _)), posB_sB k _ hk
              (Nat.le_of_lt_succ (Nat.mod_lt _ (by omega))), Nat.mod_add_mod]
          have h1 : (posB k p + 1 + k) % (k + 1) = posB k p := by
            have h2 : posB k p ≤ k := posB_le k p
            have h3 : posB k p + 1 + k = posB k p + (k + 1) := by omega
            rw [h3, Nat.add_mod_right, Nat.mod_eq_of_lt (by omega)]
          rw [h1, sB_posB k p hk (by omega)]

theorem eIdx_eq_psi (k c : Nat) (hc : c ≤ k) : eIdx k c = psi k c k := by
  rw [eIdx, psi]
  by_cases hodd : k % 2 = 1
  · rw [if_pos hodd, if_pos hodd, psiA_at_k k c (by omega)]
    split_ifs <;> first | contradiction | omega
  · have hk : k % 2 = 0 := by omega
    rw [if_neg hodd, if_neg hodd, psiB, if_neg (by omega), posB_self k hk,
      Nat.zero_add, Nat.mod_eq_of_lt (by omega)]

theorem eIdx_le (k c : Nat) (hc : c ≤ k) : eIdx k c ≤ k := by
  rw [eIdx]
  split
  · split_ifs <;> omega
  · exact sB_le k c

theorem sB_inj (k : Nat) (hk : k % 2 = 0) (c1 c2 : Nat) (h1 : c1 ≤ k) (h2 : c2 ≤ k)
    (h : sB k c1 = sB k c2) : c1 = c2 := by
  have := congrArg (posB k) h
  rwa [posB_sB k c1 hk h1, posB_sB k c2 hk h2] at this

theorem eIdx_inj (k c1 c2 : Nat) (h1 : c1 ≤ k) (h2 : c2 ≤ k)
    (h : eIdx k c1 = eIdx k c2) : c1 = c2 := by
  rw [eIdx, eIdx] at h
  by_cases hodd : k % 2 = 1
  · rw [if_pos hodd, if_pos hodd] at h
    split_ifs at h <;> omega
  · have hk : k % 2 = 0 := by omega
    rw [if_neg hodd, if_neg hodd] at h
    exact sB_inj k hk c1 c2 h1 h2 h

/-! ### The block decomposition of `runD (k + 1)` -/

theorem ms_length (k : Nat) (arr : List α) : ∀ c, (ms k arr c).length = arr.length
  | 0 => rfl
  | c + 1 => by
    rw [ms, swapL_length, runD_length, ms_length k arr c]

theorem ms_perm (k : Nat) (arr : List α) : ∀ c, List.Perm (ms k arr c) arr
  | 0 => List.Perm.refl arr
  | c + 1 => by
    rw [ms]
    exact ((swapL_perm _ _ _).trans ((runD_perm k (ms k arr c)).1)).trans (ms_perm k arr c)

/-- One block step of the digit-`k` cycle reads position `p` from position
`gStep k c p` of the previous block start, given the pointwise final
characterization of the sub-runs. -/
theorem ms_step (k c : Nat) (arr : List α)
    (hsub : ∀ A : List α, A.length = arr.length →
      ∀ p, (runD k A).2.get? p = A.get? (finIdx k p))
    (hk : k < arr.length) (hc : c < k) (p : Nat) :
    (ms k arr (c + 1)).get? p = (ms k arr c).get? (gStep k c p) := by
  have hlen : (runD k (ms k arr c)).2.length = arr.length := by
    rw [runD_length, ms_length]
  have hF : ∀ q, (runD k (ms k arr c)).2.get? q = (ms k arr c).get? (finIdx k q) :=
    hsub (ms k arr c) (ms_length k arr c)
  rw [ms, gStep]
  set j := if k % 2 = 0 then 0 else c with hj
  have hjlt : j < arr.length := by
    rw [hj]
    split <;> omega
  by_cases hpj : p = j
  · rw [if_pos hpj, hpj,
      swapL_get?_fst _ _ _ (by rw [hlen]; exact hjlt) (by rw [hlen]; exact hk),
      hF k, finIdx_ge k k (Nat.le_refl k)]
  · rw [if_neg hpj]
    by_cases hpk : p = k
    · rw [if_pos hpk, hpk,
        swapL_get?_snd _ _ _ (by rw [hlen]; exact hjlt) (by rw [hlen]; exact hk), hF j]
    · rw [if_neg hpk, swapL_get?_other _ _ _ _ hpj hpk, hF p]

/-- Accumulated form: block `c` reads position `p` from position `psi k c p`
of the initial array. -/
theorem psi_ms (k : Nat) (arr : List α)
    (hsub : ∀ A : List α, A.length = arr.length →
      ∀ p, (runD k A).2.get? p = A.get? (finIdx k p))
    (hk : k < arr.length) :
    ∀ c, c ≤ k → ∀ p, (ms k arr c).get? p = arr.get? (psi k c p)
  | 0, _, p => by rw [psi_zero]; rfl
  | c + 1, hc, p => by
    rw [ms_step k c arr hsub hk (by omega) p,
      psi_ms k arr hsub hk c (by omega) (gStep k c p), psi_step k c p (by omega)]

/-- The full cycle of counter digit `k` decomposes into the blocks
`ms k arr c` for `c = v + 1 .. k`, each followed by its complete sub-run. -/
theorem finishGo_blocks (k : Nat) (arr : List α) :
    ∀ (fuel v : Nat), fuel + v = k →
      finishGo k (runD k) fuel v (runD k (ms k arr v)).2 =
        (((List.range' (v + 1) fuel).map
            fun c => ms k arr c :: (runD k (ms k arr c)).1).flatten,
          (runD k (ms k arr k)).2)
  | 0, v, hfv => by
    obtain rfl : v = k := by omega
    rfl
  | fuel + 1, v, hfv => by
    rw [finishGo, if_pos (show v < k by omega)]
    dsimp only
    rw [show swapL (runD k (ms k arr v)).2 (if k % 2 = 0 then 0 else v) k
        = ms k arr (v + 1) from rfl]
    rw [finishGo_blocks k arr fuel (v + 1) (by omega)]
    rw [show List.range' (v + 1) (fuel + 1) = (v + 1) :: List.range' (v + 2) fuel from rfl]
    rw [List.map_cons, List.flatten_cons, List.cons_append]

/-- The yields of `runD (k + 1) arr` (with the initial array in front) are
exactly the concatenation of the `k + 1` blocks, and its final array is the
final array of the last block's sub-run. -/
theorem runD_blocks (k : Nat) (arr : List α) :
    arr :: (runD (k + 1) arr).1 =
      ((List.range (k + 1)).map fun c => ms k arr c :: (runD k (ms k arr c)).1).flatten ∧
      (runD (k + 1) arr).2 = (runD k (ms k arr k)).2 := by
  have h2 : finishGo k (runD k) k 0 (runD k arr).2 =
      (((List.range' 1 k).map fun c => ms k arr c :: (runD k (ms k arr c)).1).flatten,
        (runD k (ms k arr k)).2) := finishGo_blocks k arr k 0 (by omega)
  have hrange : List.range (k + 1) = 0 :: List.range' 1 k := by
    rw [List.range_eq_range']
    rfl
  rw [runD]
  dsimp only
  rw [h2, hrange, List.map_cons, List.flatten_cons]
  exact ⟨rfl, rfl⟩

/-- The main characterization of a complete run of counter digits below `K`:
position `p` of the final array holds the element initially at `finIdx K p`,
and on a duplicate-free array all `K!` snapshots (the initial array plus the
yields) are pairwise distinct. -/
theorem runD_main : ∀ (K : Nat) (arr : List α), K ≤ arr.length →
    (∀ p, (runD K arr).2.get? p = arr.get? (finIdx K p)) ∧
      (arr.Nodup → (arr :: (runD K arr).1).Nodup)
  | 0, arr, _ => by
    constructor
    · intro p
      rw [show finIdx 0 p = p from by rw [finIdx, if_pos (by omega)]]
      rfl
    · intro _
      exact List.nodup_singleton arr
  | K + 1, arr, hK => by
    have hKlt : K < arr.length := by omega
    have hsub : ∀ A : List α, A.length = arr.length →
        ∀ p, (runD K A).2.get? p = A.get? (finIdx K p) := fun A hA =>
      (runD_main K A (by omega)).1
    obtain ⟨hb1, hb2⟩ := runD_blocks K arr
    have hpsi := psi_ms K arr hsub hKlt
    constructor
    · intro p
      rw [hb2, hsub (ms K arr K) (ms_length K arr K) p,
        hpsi K (Nat.le_refl K) (finIdx K p), ← psi_finIdx K p]
    · intro hnd
      have hval : ∀ c, c ≤ K → ∀ L ∈ ms K arr c :: (runD K (ms K arr c)).1,
          L.get? K = arr.get? (eIdx K c) := by
        intro c hc L hL
        rw [eIdx_eq_psi K c hc, ← hpsi c hc K]
        rcases List.mem_cons.mp hL with h | h
        · rw [h]
        · exact (runD_suffix K (ms K arr c)).2 L h K (Nat.le_refl K)
      rw [hb1, List.nodup_flatten]
      constructor
      · intro s hs
        rw [List.mem_map] at hs
        obtain ⟨c, hc, rfl⟩ := hs
        have hndc : (ms K arr c).Nodup := ((ms_perm K arr c).symm.nodup hnd)
        exact (runD_main K (ms K arr c) (by rw [ms_length]; omega)).2 hndc
      · rw [List.pairwise_map]
        refine (List.pairwise_lt_range (K + 1)).imp_of_mem ?_
        intro c c' hcm hcm' hlt L hLc hLc'
        rw [List.mem_range] at hcm hcm'
        have hc : c ≤ K := by omega
        have hc' : c' ≤ K := by omega
        have h1 := hval c hc L hLc
        have h2 := hval c' hc' L hLc'
        have heq : arr[eIdx K c]? = arr[eIdx K c']? := by
          rw [← List.get?_eq_getElem? arr (eIdx K c), ← List.get?_eq_getElem? arr (eIdx K c'),
            ← h1, ← h2]
        have hE : eIdx K c = eIdx K c' :=
          List.getElem?_inj (by have := eIdx_le K c hc; omega) hnd heq
        have : c = c' := eIdx_inj K c c' hc hc' hE
        omega

/-! ### The iterative loop is the recursive decomposition -/

theorem getD_set_self (c : List Nat) (i x : Nat) (h : i < c.length) :
    (c.set i x).getD i 0 = x := by
  rw [List.getD_eq_getElem?_getD, List.getElem?_set_eq_of_lt _ (by simpa using h)]
  rfl

theorem getD_set_other (c : List Nat) (i x j : Nat) (hj : j ≠ i) :
    (c.set i x).getD j 0 = c.getD j 0 := by
  rw [List.getD_eq_getElem?_getD, List.getD_eq_getElem?_getD,
    List.getElem?_set_ne (fun h => hj h.symm)]

/-- Only the counter digits at positions `≥ i` matter to the climb from
digit `i`. -/
theorem climbD_congr (c1 c2 : List Nat) :
    ∀ (s i : Nat) (arr : List α), (∀ j, i ≤ j → c1.getD j 0 = c2.getD j 0) →
      climbD c1 s i arr = climbD c2 s i arr
  | 0, _, _, _ => rfl
  | s + 1, i, arr, h => by
    rw [climbD, climbD]
    rw [h i (Nat.le_refl i),
      climbD_congr c1 c2 s (i + 1) _ (fun j hj => h j (by omega))]

/-- A climb from digit `0` whose counter digits below `m` are all zero starts
with the complete run of the digits below `m`. -/
theorem climbD_zero (c : List Nat) (arr : List α) :
    ∀ (m s : Nat), m ≤ s → (∀ j, j < m → c.getD j 0 = 0) →
      climbD c s 0 arr =
        ((runD m arr).1 ++ (climbD c (s - m) m (runD m arr).2).1,
          (climbD c (s - m) m (runD m arr).2).2)
  | 0, s, _, _ => rfl
  | m + 1, s, hms, hz => by
    rw [climbD_zero c arr m s (by omega) (fun j hj => hz j (by omega))]
    rw [show s - m = (s - (m + 1)) + 1 from by omega]
    rw [climbD]
    dsimp only
    rw [hz m (by omega), Nat.sub_zero, runD]
    dsimp only
    rw [List.append_assoc]

/-- The `then` branch of the loop: a swap at digit `i`, a yield, and a restart
from digit `0` with the digit-`i` counter incremented. -/
theorem climbD_then (c c' : List Nat) (arr arr1 : List α) (i d : Nat)
    (hd : c.getD i 0 = d)
    (harr1 : swapL arr (if i % 2 = 0 then 0 else d) i = arr1)
    (hc' : c.set i (d + 1) = c')
    (hcl : c.length = arr.length) (hi : i < arr.length) (hci : d < i)
    (hz : ∀ j, j < i → c.getD j 0 = 0) :
    (climbD c (arr.length - i) i arr).1 = arr1 :: (climbD c' arr1.length 0 arr1).1 ∧
      (climbD c (arr.length - i) i arr).2 = (climbD c' arr1.length 0 arr1).2 := by
  have harr1len : arr1.length = arr.length := by rw [← harr1, swapL_length]
  have hzc' : ∀ j, j < i → c'.getD j 0 = 0 := by
    intro j hj
    rw [← hc', getD_set_other c i (d + 1) j (by omega), hz j hj]
  have hlhs : climbD c (arr.length - i) i arr =
      (arr1 :: (((runD i arr1).1 ++
          (finishGo i (runD i) (i - (d + 1)) (d + 1) (runD i arr1).2).1) ++
          (climbD c (arr.length - (i + 1)) (i + 1)
            (finishGo i (runD i) (i - (d + 1)) (d + 1) (runD i arr1).2).2).1),
        (climbD c (arr.length - (i + 1)) (i + 1)
          (finishGo i (runD i) (i - (d + 1)) (d + 1) (runD i arr1).2).2).2) := by
    rw [show arr.length - i = (arr.length - (i + 1)) + 1 from by omega]
    rw [climbD]
    rw [hd, show i - d = (i - (d + 1)) + 1 from by omega, finishGo, if_pos hci]
    dsimp only
    rw [harr1]
    rfl
  have hrhs : climbD c' arr1.length 0 arr1 =
      ((runD i arr1).1 ++
        ((finishGo i (runD i) (i - (d + 1)) (d + 1) (runD i arr1).2).1 ++
          (climbD c (arr.length - (i + 1)) (i + 1)
            (finishGo i (runD i) (i - (d + 1)) (d + 1) (runD i arr1).2).2).1),
        (climbD c (arr.length - (i + 1)) (i + 1)
          (finishGo i (runD i) (i - (d + 1)) (d + 1) (runD i arr1).2).2).2) := by
    rw [climbD_zero c' arr1 i arr1.length (by omega) hzc']
    rw [show arr1.length - i = (arr.length - (i + 1)) + 1 from by omega]
    rw [climbD]
    dsimp only
    rw [← hc', getD_set_self c i (d + 1) (by omega)]
    rw [climbD_congr (c.set i (d + 1)) c (arr.length - (i + 1)) (i + 1) _
      (fun j hj => getD_set_other c i (d + 1) j (by omega))]
  rw [hlhs, hrhs]
  exact ⟨by rw [List.append_assoc], rfl⟩

/-- The `else` branch of the loop: digit `i` is exhausted, reset it and move
up. -/
theorem climbD_else (c : List Nat) (arr : List α) (i : Nat)
    (hi : i < arr.length) (hci : c.getD i 0 = i) :
    climbD c (arr.length - i) i arr =
      climbD (c.set i 0) (arr.length - (i + 1)) (i + 1) arr := by
  rw [show arr.length - i = (arr.length - (i + 1)) + 1 from by omega, climbD]
  rw [hci, Nat.sub_self, show finishGo i (runD i) 0 i arr = ([], arr) from rfl]
  dsimp only
  rw [climbD_congr c (c.set i 0) (arr.length - (i + 1)) (i + 1) arr
    (fun j hj => (getD_set_other c i 0 j (by omega)).symm)]
  rfl

/-- The simulation: with enough fuel, the iterative loop from any reachable
state produces exactly the yields of the climb from that state. -/
theorem iterGo_sim : ∀ (fuel : Nat) (arr : List α) (c : List Nat) (i : Nat),
    c.length = arr.length → i ≤ arr.length →
    (∀ j, j < i → c.getD j 0 = 0) →
    (∀ j, j < arr.length → c.getD j 0 ≤ j) →
    (climbD c (arr.length - i) i arr).1.length * (arr.length + 1) + (arr.length - i)
      < fuel →
    iterGo fuel arr c i = some (climbD c (arr.length - i) i arr).1
  | 0, arr, c, i, _, _, _, _, hg => by omega
  | fuel + 1, arr, c, i, hcl, hin, hz, hv, hg => by
    rw [iterGo]
    by_cases hi : i < arr.length
    · rw [if_pos hi]
      by_cases hci : c.getD i 0 < i
      · rw [if_pos hci]
        dsimp only
        have hT := climbD_then c (c.set i (c.getD i 0 + 1)) arr
          (swapL arr (if i % 2 = 0 then 0 else c.getD i 0) i) i (c.getD i 0)
          rfl rfl rfl hcl hi hci hz
        have hslen : (swapL arr (if i % 2 = 0 then 0 else c.getD i 0) i).length
            = arr.length := swapL_length arr _ i
        rw [hslen] at hT
        have hlen : (climbD c (arr.length - i) i arr).1.length =
            (climbD (c.set i (c.getD i 0 + 1)) arr.length 0
              (swapL arr (if i % 2 = 0 then 0 else c.getD i 0) i)).1.length + 1 := by
          rw [hT.1, List.length_cons]
        have hIH := iterGo_sim fuel (swapL arr (if i % 2 = 0 then 0 else c.getD i 0) i)
          (c.set i (c.getD i 0 + 1)) 0
          (by rw [List.length_set, hcl, hslen])
          (by omega)
          (fun j hj => absurd hj (by omega))
          (by
            intro j hj
            rw [hslen] at hj
            by_cases hji : j = i
            · rw [hji, getD_set_self c i (c.getD i 0 + 1) (by omega)]
              omega
            · rw [getD_set_other c i (c.getD i 0 + 1) j hji]
              exact hv j hj)
          (by
            rw [Nat.sub_zero, hslen]
            rw [hlen, Nat.succ_mul] at hg
            omega)
        rw [Nat.sub_zero, hslen] at hIH
        rw [hIH, Option.map_some', hT.1]
      · rw [if_neg hci]
        have hcieq : c.getD i 0 = i := by
          have := hv i hi
          omega
        have hIH := iterGo_sim fuel arr (c.set i 0) (i + 1)
          (by rw [List.length_set, hcl])
          (by omega)
          (fun j hj => by
            by_cases hji : j = i
            · rw [hji]
              exact getD_set_self c i 0 (by omega)
            · rw [getD_set_other c i 0 j hji]
              exact hz j (by omega))
          (fun j hj => by
            by_cases hji : j = i
            · rw [hji, getD_set_self c i 0 (by omega)]
              omega
            · rw [getD_set_other c i 0 j hji]
              exact hv j hj)
          (by
            rw [← climbD_else c arr i hi hcieq]
            omega)
        rw [hIH, ← climbD_else c arr i hi hcieq]
    · rw [if_neg hi]
      rw [show arr.length - i = 0 from by omega]
      rfl

/-- On an all-zero counter the climb from digit `0` is exactly the complete
run of all digits. -/
theorem climbD_runD (c : List Nat) (arr : List α) (hz : ∀ j, c.getD j 0 = 0) :
    climbD c (arr.length - 0) 0 arr =
      ((runD arr.length arr).1, (runD arr.length arr).2) := by
  rw [climbD_zero c arr arr.length (arr.length - 0) (by omega) (fun j _ => hz j)]
  rw [show arr.length - 0 - arr.length = 0 from by omega]
  dsimp only [climbD]
  rw [List.append_nil]

theorem getD_replicate_zero (n j : Nat) : (List.replicate n (0 : Nat)).getD j 0 = 0 := by
  rw [List.getD_eq_getElem?_getD, List.getElem?_replicate]
  split <;> rfl

/-- With enough fuel, `permutations` yields the initial order followed by the
yields of the complete run. -/
theorem permutationsFuel_eq (l : List α) (fuel : Nat)
    (hf : (runD l.length l).1.length * (l.length + 1) + l.length < fuel) :
    permutationsFuel fuel l = some (l :: (runD l.length l).1) := by
  have hz : ∀ j, (List.replicate l.length (0 : Nat)).getD j 0 = 0 :=
    fun j => getD_replicate_zero l.length j
  have hsim := iterGo_sim fuel l (List.replicate l.length 0) 0
    (List.length_replicate l.length 0)
    (by omega)
    (fun j hj => hz j)
    (fun j hj => by rw [hz j]; omega)
    (by
      rw [climbD_runD (List.replicate l.length 0) l hz]
      dsimp only
      omega)
  rw [permutationsFuel, hsim, climbD_runD (List.replicate l.length 0) l hz]
  rfl

/-- C5 (amended): for every finite input `l` the permutations loop terminates
once given enough fuel, and yields exactly `(count l)!` value-snapshots whose
first is the input order; the snapshots are pairwise distinct whenever the
input's elements are pairwise distinct.  (The original claim asserted
distinctness for every input; it fails on inputs with equal elements.) -/
theorem c5_permutations_amended (l : List α) :
    ∃ outs : List (List α),
      (∃ f₀ : Nat, ∀ fuel, f₀ ≤ fuel → permutationsFuel fuel l = some outs) ∧
        outs.length = Nat.factorial (count l) ∧
        outs.head? = some l ∧
        (l.Nodup → outs.Nodup) := by
  refine ⟨l :: (runD l.length l).1,
    ⟨(runD l.length l).1.length * (l.length + 1) + l.length + 1, ?_⟩, ?_, rfl, ?_⟩
  · intro fuel hf
    exact permutationsFuel_eq l fuel (by omega)
  · rw [List.length_cons, runD_count, count_eq_length]
    have := Nat.factorial_pos l.length
    omega
  · exact fun hnd => (runD_main l.length l (Nat.le_refl l.length)).2 hnd

/-- Witness: at the concrete input `[0, 1, 2]` the amended permutations
property instantiates (with `3! = 6` pairwise distinct snapshots headed by
the input itself). -/
theorem c5_witness :
    ∃ outs : List (List Nat),
      (∃ f₀ : Nat, ∀ fuel, f₀ ≤ fuel →
        permutationsFuel fuel ([0, 1, 2] : List Nat) = some outs) ∧
        outs.length = Nat.factorial (count ([0, 1, 2] : List Nat)) ∧
        outs.head? = some [0, 1, 2] ∧
        (([0, 1, 2] : List Nat).Nodup → outs.Nodup) :=
  c5_permutations_amended ([0, 1, 2] : List Nat)

/-- Counterexample to the original C5 claim: on the duplicate input `[0, 0]`
the loop yields the snapshots `[0, 0]` and `[0, 0]`, which are not pairwise
distinct (their number is still `2!` and the first equals the input). -/
theorem c5_counterexample :
    permutationsFuel 64 ([0, 0] : List Nat) = some [[0, 0], [0, 0]] ∧
      ¬ ([[0, 0], [0, 0]] : List (List Nat)).Nodup :=
  ⟨by decide, by decide⟩

/-- C10: every window yielded by `slicesOf` and `slicesOfOverlapping` is
backed by an array the combinator never mutates after the yield
(`slicesOfOverlapping` yields fresh copies; `slicesOf` abandons the yielded
array and allocates a new one), so each yielded address still holds its
at-yield snapshot when the traversal ends — unlike `permutations`, whose
yields all alias the one backing array, as the run on `[0, 1]` shows: both
yields carry address `0`, and the final store no longer matches the first
snapshot. -/
theorem c10_yielded_windows_frame (l : List α) (size : Nat) :
    (∀ p ∈ (slicesOfS l size).1, readA (slicesOfS l size).2 p.1 = p.2) ∧
      (∀ p ∈ (slicesOfOverlappingS l size).1,
        readA (slicesOfOverlappingS l size).2 p.1 = p.2) ∧
      permutationsS ([0, 1] : List Nat) 32 =
          some ([(0, [0, 1]), (0, [1, 0])], ⟨[[1, 0]]⟩) ∧
      readA (⟨[[1, 0]]⟩ : Store Nat) 0 ≠ [0, 1] := by
  refine ⟨?_, ?_, by decide, by decide⟩
  · exact (slicesOfSGo_frame size l 0 ⟨[[]]⟩ rfl).2.2
  · rw [slicesOfOverlappingS]
    split
    · intro p hp
      rcases List.mem_cons.mp hp with rfl | hp
      · have h := (slicesOfOverlappingSGo_frame size l 0 ⟨[[], []]⟩ (by simp)).2.1
        exact h 1 (by simp) (by simp)
      · exact (slicesOfOverlappingSGo_frame size l 0 ⟨[[], []]⟩ (by simp)).2.2 p hp
    · exact (slicesOfOverlappingSGo_frame size l 0 ⟨[[]]⟩ (by simp)).2.2

end Jspp
